import Mathlib

/-!
# Smitto::OrderedKeyMap — a shallow embedding of `src/src/OrderedKeyMap.hpp`

The container is a flat, sorted array of `Pair`s stored in a raw `malloc` block.

Conventions of the embedding.

* `KTYPE` is an unsigned integer type (the test harness instantiates it with `quint32`);
  keys are `Nat`, and the value `-1` returned by `iterator::key()` outside `[0, count)`
  is `keyNone = 2^32 - 1`.  Keys are compared; the one product of keys, in
  `valueNearPos`, is taken modulo `2^32`.
* C++ `int` quantities (`count_`, `dataSize_`, positions) are `Int`; the block sizes the
  code computes are assumed to stay inside the range of `int`.
* The raw block is a function from entry index to `Pair`.  Everything the code does
  with addresses is entry aligned (`data_ + pos*sizeof(Pair)`), byte *lengths* are not:
  `copyBytes` copies whole entries and hands the remaining bytes to `Env.overlay`.
* What depends on the template arguments, the ABI or the allocator is a field of `Env`:
  `sizeof(Pair)`, `TYPE()`, the effect of a partial copy of an entry, the contents of a
  freshly allocated block, and the floating-point interpolation expression of
  `internalSearch` (RelativePrediction).  Theorems quantify over all of them.
* Accesses outside the allocated block are undefined behaviour in C++; the embedding
  gives the block no boundary, and `free` is not modelled.
-/

namespace Smitto

/-- The constant `BASESIZE` of the header. -/
def BASESIZE : Int := 6400

/-- The value `KTYPE(-1)` that `iterator::key()` returns outside `[0, count)`,
for a 32-bit unsigned key type. -/
def keyNone : Nat := 4294967295

/-- The enum `FindAlgorithm`, a template argument of the container. -/
inductive FindAlgorithm where
  | BinarySeparation
  | RelativePrediction
  deriving DecidableEq, Repr

/-- The enum `SearchType`. -/
inductive SearchType where
  | LowerBound
  | UpperBound
  | Find
  deriving DecidableEq, Repr

/-- The struct `OrderedKeyMap::Pair`. -/
structure Pair (V : Type) where
  key : Nat
  value : V
  deriving DecidableEq, Repr

/-- A raw block, seen as entries: `mem pos` is `*(Pair*)((char*)data_ + pos*sizeof(Pair))`. -/
abbrev Mem (V : Type) := Int → Pair V

/-- What the template arguments, the ABI and the allocator decide. -/
structure Env (V : Type) where
  /-- The number `sizeof(Pair)`. -/
  sizeofPair : Int
  /-- The size of an object is positive. -/
  sizeofPair_pos : 0 < sizeofPair
  /-- The value `TYPE()`. -/
  typeDefault : V
  /-- The entry obtained from `old` by overwriting its first `r` bytes
  (`0 < r < sizeof(Pair)`) with the first `r` bytes of `new`: `overlay r old new`. -/
  overlay : Int → Pair V → Pair V → Pair V
  /-- The (indeterminate) contents of a freshly allocated block. -/
  fresh : Mem V
  /-- The value of `begin + (end-begin)*float(key-beginKey)/(endKey-beginKey)` converted
  to `int`, as a function of `begin end key beginKey endKey`. -/
  predict : Int → Int → Nat → Nat → Nat → Int

/-- The data members of `OrderedKeyMap`. -/
structure OrderedKeyMap (V : Type) where
  dataSize_ : Int
  data_ : Mem V
  count_ : Int
  lastKey_ : Nat
  firstKey_ : Nat
  emptyVal : V

variable {V : Type}

/-- The effect of `memcpy`/`memmove(dst + dpos*sizeof(Pair), src + spos*sizeof(Pair), n)`
on the destination block: `n / sizeof(Pair)` whole entries, then the leading
`n % sizeof(Pair)` bytes of one more.  The source is read before anything is written
(the `memmove` semantics; the `memcpy` calls of the code copy between distinct blocks). -/
def copyBytes (env : Env V) (dst : Mem V) (dpos : Int) (src : Mem V) (spos : Int)
    (n : Int) : Mem V :=
  fun i =>
    if n ≤ 0 then dst i
    else if dpos ≤ i ∧ i < dpos + n / env.sizeofPair then src (spos + (i - dpos))
    else if i = dpos + n / env.sizeofPair ∧ 0 < n % env.sizeofPair then
      env.overlay (n % env.sizeofPair) (dst i) (src (spos + n / env.sizeofPair))
    else dst i

/-- Placement of a `Pair` at entry `pos`. -/
def writePair (mem : Mem V) (pos : Int) (p : Pair V) : Mem V :=
  fun i => if i = pos then p else mem i

/-- Assignment to the `value` member of entry `pos`. -/
def writeValue (mem : Mem V) (pos : Int) (v : V) : Mem V :=
  fun i => if i = pos then { key := (mem i).key, value := v } else mem i

namespace OrderedKeyMap

/-- `dataAt(pos)`. -/
def dataAt (m : OrderedKeyMap V) (pos : Int) : Pair V := m.data_ pos

/-- `count()`. -/
def count (m : OrderedKeyMap V) : Int := m.count_

/-- `lastKey()`. -/
def lastKey (m : OrderedKeyMap V) : Nat := m.lastKey_

/-- `firstKey()`. -/
def firstKey (m : OrderedKeyMap V) : Nat := m.firstKey_

/-- `isEmpty()` / `empty()`: `!count_`. -/
def empty (m : OrderedKeyMap V) : Bool := decide (m.count_ = 0)

/-- `constBegin()`, as a position. -/
def constBegin (_m : OrderedKeyMap V) : Int := 0

/-- `constEnd()`, as a position. -/
def constEnd (m : OrderedKeyMap V) : Int := m.count_

/-- `iterator::key()` of the iterator of `m` at position `pos`. -/
def itKey (m : OrderedKeyMap V) (pos : Int) : Nat :=
  if pos ≥ m.count_ ∨ pos < 0 then keyNone else (m.dataAt pos).key

/-- `iterator::value()` of the iterator of `m` at position `pos`. -/
def itValue (m : OrderedKeyMap V) (pos : Int) : V := (m.dataAt pos).value

/-- `reserveData(k)`: `if (k > 0) data_ = malloc(dataSize_ = k);`. -/
def reserveData (env : Env V) (m : OrderedKeyMap V) (k : Int) : OrderedKeyMap V :=
  if k > 0 then { m with data_ := env.fresh, dataSize_ := k } else m

/-- `realoc(addk)`. -/
def realoc (env : Env V) (m : OrderedKeyMap V) (addk : Int) : OrderedKeyMap V :=
  let ldata := m.data_
  let m1 := reserveData env m (m.dataSize_ + addk)
  { m1 with data_ := copyBytes env m1.data_ 0 ldata 0 (m1.dataSize_ - addk) }

/-- The constructor `OrderedKeyMap(int size = BASESIZE)`; the members start from their
default initialisers, and `data_` (a null pointer when nothing is reserved) has no
readable contents. -/
def construct (env : Env V) (size : Int) : OrderedKeyMap V :=
  let m0 : OrderedKeyMap V :=
    { dataSize_ := 0, data_ := env.fresh, count_ := 0, lastKey_ := 0, firstKey_ := 0,
      emptyVal := env.typeDefault }
  if size > 0 then reserveData env m0 (size * env.sizeofPair) else m0

/-- `clear()`. -/
def clear (m : OrderedKeyMap V) : OrderedKeyMap V :=
  { m with count_ := 0, lastKey_ := 0, firstKey_ := 0 }

/-- The code after the loop of both `internalSearch` overloads. -/
def searchExit (m : OrderedKeyMap V) (stype : SearchType) (e : Int) : Int :=
  if stype = SearchType.LowerBound ∨ stype = SearchType.UpperBound then e else m.constEnd

/-- The `while (begin + 1 < end)` loop of `internalSearch` (BinarySeparation), with the
code after it; `fuel` bounds the number of iterations. -/
def binaryLoop (m : OrderedKeyMap V) (key : Nat) (stype : SearchType) :
    Nat → Int → Int → Int
  | 0, _, e => searchExit m stype e
  | fuel + 1, b, e =>
    if b + 1 < e then
      let pos := (e + b) / 2
      let atval := m.dataAt pos
      if atval.key = key then
        (if stype = SearchType.UpperBound then pos + 1 else pos)
      else if key > atval.key then binaryLoop m key stype fuel pos e
      else binaryLoop m key stype fuel b pos
    else searchExit m stype e

/-- The clamp of the probe in `internalSearch` (RelativePrediction). -/
def clampProbe (b e pos : Int) : Int :=
  if pos ≤ b then b + 1 else if pos ≥ e then e - 1 else pos

/-- The `while (begin + 1 < end)` loop of `internalSearch` (RelativePrediction), with
the code after it; `fuel` bounds the number of iterations. -/
def relativeLoop (env : Env V) (m : OrderedKeyMap V) (key : Nat) (stype : SearchType) :
    Nat → Int → Int → Nat → Nat → Int
  | 0, _, e, _, _ => searchExit m stype e
  | fuel + 1, b, e, beginKey, endKey =>
    if b + 1 < e then
      let pos := clampProbe b e (env.predict b e key beginKey endKey)
      let atval := m.dataAt pos
      if atval.key = key then
        (if stype = SearchType.UpperBound then pos + 1 else pos)
      else if key > atval.key then relativeLoop env m key stype fuel pos e atval.key endKey
      else relativeLoop env m key stype fuel b pos beginKey atval.key
    else searchExit m stype e

/-- The two overloads of `internalSearch`, selected by the `FindAlgorithm` template
argument.  Both loops start at `begin = 0`, `end = count() - 1` and shrink `end - begin`
in every iteration, so `end - begin` iterations are always enough
(`binaryLoop_fuel`, `relativeLoop_fuel`). -/
def internalSearch (env : Env V) (alg : FindAlgorithm) (m : OrderedKeyMap V) (key : Nat)
    (stype : SearchType) : Int :=
  match alg with
  | FindAlgorithm.BinarySeparation =>
    binaryLoop m key stype (m.count - 1).toNat 0 (m.count - 1)
  | FindAlgorithm.RelativePrediction =>
    relativeLoop env m key stype (m.count - 1).toNat 0 (m.count - 1) m.firstKey m.lastKey

/-- `lowerBound(key)`; the result is the position of the returned iterator. -/
def lowerBound (env : Env V) (alg : FindAlgorithm) (m : OrderedKeyMap V) (key : Nat) : Int :=
  if m.empty ∨ key > m.lastKey_ then m.constEnd
  else if key = m.lastKey_ then m.count_ - 1
  else if key ≤ m.firstKey_ then 0
  else internalSearch env alg m key SearchType.LowerBound

/-- `upperBound(key)`. -/
def upperBound (env : Env V) (alg : FindAlgorithm) (m : OrderedKeyMap V) (key : Nat) : Int :=
  let it := lowerBound env alg m key
  if m.constEnd = it ∨ key < m.itKey it then it else it + 1

/-- `find(key)`. -/
def find (env : Env V) (alg : FindAlgorithm) (m : OrderedKeyMap V) (key : Nat) : Int :=
  let it := lowerBound env alg m key
  if it = m.constEnd ∨ m.itKey it = key then it else m.constEnd

/-- `contains(key)`: `constFind(key) != constEnd()`. -/
def contains (env : Env V) (alg : FindAlgorithm) (m : OrderedKeyMap V) (key : Nat) : Bool :=
  decide (find env alg m key ≠ m.constEnd)

/-- `insertBefore(pos, key, value)`; the returned reference is to the value of entry
`pos` of the result. -/
def insertBefore (env : Env V) (m : OrderedKeyMap V) (pos : Int) (key : Nat) (value : V) :
    OrderedKeyMap V :=
  let m1 : OrderedKeyMap V :=
    if (m.count_ + 1) * env.sizeofPair > m.dataSize_ then
      let ldata := m.data_
      let m2 := reserveData env m (2 * m.dataSize_)
      let d1 := if pos > 0 then copyBytes env m2.data_ 0 ldata 0 (pos * env.sizeofPair)
                else m2.data_
      { m2 with data_ := copyBytes env d1 (pos + 1) ldata pos
                            ((m.count_ - pos) * env.sizeofPair) }
    else
      { m with data_ := copyBytes env m.data_ (pos + 1) m.data_ pos
                            ((m.count_ - pos) * env.sizeofPair) }
  let m3 := { m1 with data_ := writePair m1.data_ pos { key := key, value := value } }
  let m4 := if pos = 0 then { m3 with firstKey_ := key } else m3
  { m4 with count_ := m4.count_ + 1 }

/-- `insert(key, value)`; the second component is the position of the returned iterator. -/
def insert (env : Env V) (alg : FindAlgorithm) (m : OrderedKeyMap V) (key : Nat) (value : V) :
    OrderedKeyMap V × Int :=
  let m := if m.dataSize_ = 0 then reserveData env m (BASESIZE * env.sizeofPair) else m
  if m.empty then
    ({ m with data_ := writePair m.data_ 0 { key := key, value := value },
              count_ := m.count_ + 1, firstKey_ := key, lastKey_ := key }, m.constBegin)
  else if key > m.lastKey_ then
    let m1 := if (m.count_ + 1) * env.sizeofPair > m.dataSize_ then realoc env m m.dataSize_
              else m
    ({ m1 with data_ := writePair m1.data_ m1.count_ { key := key, value := value },
               lastKey_ := key, count_ := m1.count_ + 1 }, m1.count_)
  else
    let it := lowerBound env alg m key
    if m.itKey it = key then
      ({ m with data_ := writeValue m.data_ it value }, it)
    else
      (insertBefore env m it key value, it)

/-- `remove(key)`. -/
def remove (env : Env V) (alg : FindAlgorithm) (m : OrderedKeyMap V) (key : Nat) :
    OrderedKeyMap V :=
  if key = m.lastKey_ then
    let m1 := { m with count_ := m.count_ - 1 }
    if m1.count_ ≠ 0 then { m1 with lastKey_ := (m1.dataAt (m1.count_ - 1)).key }
    else { m1 with lastKey_ := 0, firstKey_ := 0 }
  else
    let it := lowerBound env alg m key
    if it = m.constEnd then m
    else
      { m with data_ := copyBytes env m.data_ (it - 1) m.data_ it (m.count_ - it),
               count_ := m.count_ - 1 }

/-- Where a returned `TYPE&` points: the value of an entry of the block, or the member
`emptyVal`. -/
inductive ValueRef where
  | entry (pos : Int)
  | emptyVal
  deriving DecidableEq, Repr

/-- `last()`, the non-const overload, as the target of the returned reference. -/
def last (m : OrderedKeyMap V) : ValueRef :=
  if m.count_ ≠ 0 then ValueRef.entry (m.count_ - 1) else ValueRef.emptyVal

/-- The mutable `operator [](key)`: the map afterwards and the target of the returned
reference. -/
def index (env : Env V) (alg : FindAlgorithm) (m : OrderedKeyMap V) (key : Nat) :
    OrderedKeyMap V × ValueRef :=
  if key = m.lastKey_ then (m, m.last)
  else if key > m.lastKey_ then
    let r := insert env alg m key env.typeDefault
    (r.1, ValueRef.entry r.2)
  else
    let it := lowerBound env alg m key
    if m.itKey it ≠ key then
      (insertBefore env m it key env.typeDefault, ValueRef.entry it)
    else (m, ValueRef.entry it)

/-- `trimAfter(key)`; `it.key()` is evaluated after `count_` has been assigned. -/
def trimAfter (env : Env V) (alg : FindAlgorithm) (m : OrderedKeyMap V) (key : Nat) :
    OrderedKeyMap V :=
  let it := lowerBound env alg m key
  if it = m.constBegin then m
  else
    let m1 := { m with count_ := it + 1 }
    { m1 with lastKey_ := m1.itKey it }

/-- `insertAtBegining(other)`: the map afterwards and the returned flag. -/
def insertAtBegining (env : Env V) (m other : OrderedKeyMap V) : OrderedKeyMap V × Bool :=
  if other.lastKey ≥ m.firstKey then (m, false)
  else
    let ldata := m.data_
    let m1 := reserveData env m ((other.count_ + m.count_ + BASESIZE) * env.sizeofPair)
    let m2 := { m1 with data_ := copyBytes env m1.data_ 0 other.data_ 0
                                    (other.count_ * env.sizeofPair) }
    let m3 : OrderedKeyMap V :=
      if m2.empty then { m2 with lastKey_ := other.lastKey_ }
      else { m2 with data_ := copyBytes env m2.data_ other.count_ ldata 0
                                    (m2.count_ * env.sizeofPair) }
    ({ m3 with count_ := other.count_ + m3.count_, firstKey_ := other.firstKey_ }, true)

/-- `insertAfterEnd(other)`: the map afterwards and the returned flag. -/
def insertAfterEnd (env : Env V) (m other : OrderedKeyMap V) : OrderedKeyMap V × Bool :=
  if other.firstKey ≤ m.lastKey then (m, false)
  else
    let m1 := if (other.count_ + m.count_) * env.sizeofPair > m.dataSize_ then
                realoc env m ((other.count_ + m.count_ + BASESIZE) * env.sizeofPair)
              else m
    let m2 := { m1 with data_ := copyBytes env m1.data_ m1.count_ other.data_ 0
                                    (other.count_ * env.sizeofPair) }
    let m3 := if m2.empty then { m2 with firstKey_ := other.firstKey_ } else m2
    ({ m3 with count_ := other.count_ + m3.count_, lastKey_ := other.lastKey_ }, true)

/-- The key stored at entry `i`. -/
def keyAt (m : OrderedKeyMap V) (i : Int) : Nat := (m.dataAt i).key

/-- The value stored at entry `i`. -/
def valueAt (m : OrderedKeyMap V) (i : Int) : V := (m.dataAt i).value

/-- The entries at the indices `[0, count)`, in order. -/
def entries (m : OrderedKeyMap V) : List (Pair V) :=
  (List.range m.count_.toNat).map (fun (i : Nat) => m.dataAt (i : Int))

/-- The keys of the entries at the indices `[0, count)`, in order. -/
def keys (m : OrderedKeyMap V) : List Nat := m.entries.map Pair.key

/-- Sortedness: adjacent entries of `[0, count)` have strictly ascending keys. -/
def Sorted (m : OrderedKeyMap V) : Prop :=
  ∀ i : Int, 0 ≤ i → i + 1 < m.count_ → m.keyAt i < m.keyAt (i + 1)

/-- Boundary cache: in a map that is not empty, `firstKey_` and `lastKey_` are the keys
of the first and of the last entry. -/
def CacheOk (m : OrderedKeyMap V) : Prop :=
  0 < m.count_ → m.firstKey_ = m.keyAt 0 ∧ m.lastKey_ = m.keyAt (m.count_ - 1)

/-- A well-formed map: a count that is not negative, keys strictly ascending on
`[0, count)`, and cached boundary keys that agree with the entries. -/
structure WellFormed (m : OrderedKeyMap V) : Prop where
  count_nonneg : 0 ≤ m.count_
  sorted : m.Sorted
  cache : m.CacheOk

/-- The block has room for one entry and for the `count` entries it holds. -/
def HasCapacity (env : Env V) (m : OrderedKeyMap V) : Prop :=
  env.sizeofPair ≤ m.dataSize_ ∧ m.count_ * env.sizeofPair ≤ m.dataSize_

/-- The public mutating operations. -/
inductive Op (V : Type) where
  | insert (key : Nat) (value : V)
  | index (key : Nat)
  | remove (key : Nat)
  | clear
  | trimAfter (key : Nat)
  | insertAtBegining (other : OrderedKeyMap V)
  | insertAfterEnd (other : OrderedKeyMap V)

/-- The map after one operation. -/
def applyOp (env : Env V) (alg : FindAlgorithm) (m : OrderedKeyMap V) : Op V → OrderedKeyMap V
  | Op.insert key value => (m.insert env alg key value).1
  | Op.index key => (m.index env alg key).1
  | Op.remove key => m.remove env alg key
  | Op.clear => m.clear
  | Op.trimAfter key => m.trimAfter env alg key
  | Op.insertAtBegining other => (m.insertAtBegining env other).1
  | Op.insertAfterEnd other => (m.insertAfterEnd env other).1

/-- The map after a sequence of operations, applied in order. -/
def runOps (env : Env V) (alg : FindAlgorithm) (m : OrderedKeyMap V) (ops : List (Op V)) :
    OrderedKeyMap V :=
  ops.foldl (applyOp env alg) m

/-- The map after a sequence of `insert(key, value)` calls, applied in order. -/
def insertAll (env : Env V) (alg : FindAlgorithm) (m : OrderedKeyMap V)
    (kvs : List (Nat × V)) : OrderedKeyMap V :=
  kvs.foldl (fun acc kv => (acc.insert env alg kv.1 kv.2).1) m

/-- What a search loop started at `b`, `e` returns: an exact hit strictly between them,
or the exit code at a position whose predecessor is below the key. -/
def LoopResult (m : OrderedKeyMap V) (key : Nat) (stype : SearchType) (b e r : Int) : Prop :=
  (∃ pos, b < pos ∧ pos < e ∧ m.keyAt pos = key ∧
      r = if stype = SearchType.UpperBound then pos + 1 else pos) ∨
  (∃ e2, b < e2 ∧ e2 ≤ e ∧ m.keyAt (e2 - 1) < key ∧ key < m.keyAt e2 ∧
      r = m.searchExit stype e2)

/-- Position `p` is the lower bound of `key`: every entry before it has a smaller key,
every entry from it on has a key that is at least `key`. -/
def IsLowerBound (m : OrderedKeyMap V) (key : Nat) (p : Int) : Prop :=
  0 ≤ p ∧ p ≤ m.count_ ∧ (∀ i, 0 ≤ i → i < p → m.keyAt i < key) ∧
    (∀ i, p ≤ i → i < m.count_ → key ≤ m.keyAt i)

/-- The indices of `[0, count)` whose key is at least `key`. -/
def indicesGE (m : OrderedKeyMap V) (key : Nat) : Set Int :=
  {i | 0 ≤ i ∧ i < m.count_ ∧ key ≤ m.keyAt i}

/-- The indices of `[0, count)` whose key is greater than `key`. -/
def indicesGT (m : OrderedKeyMap V) (key : Nat) : Set Int :=
  {i | 0 ≤ i ∧ i < m.count_ ∧ key < m.keyAt i}

/-- Some entry of `[0, count)` has key `key`. -/
def HasKey (m : OrderedKeyMap V) (key : Nat) : Prop :=
  ∃ i, 0 ≤ i ∧ i < m.count_ ∧ m.keyAt i = key

/-- Map `m2` is `m` with the pair `kv` inserted before entry `p`: the entries before `p`
are kept, entry `p` is `kv`, and the entries from `p` on moved up by one. -/
def InsertedAt (m m2 : OrderedKeyMap V) (p : Int) (kv : Pair V) : Prop :=
  m2.count_ = m.count_ + 1 ∧ (∀ i, 0 ≤ i → i < p → m2.dataAt i = m.dataAt i) ∧
    m2.dataAt p = kv ∧ (∀ i, p ≤ i → i < m.count_ → m2.dataAt (i + 1) = m.dataAt i)

/-- The value of the last `insert` of `key` in a sequence of `insert(key, value)` calls. -/
def lastInserted (kvs : List (Nat × V)) (key : Nat) : Option V :=
  kvs.reverse.lookup key

/-- `at(pos)`, as a position: `iterator(this, pos < count_ ? pos : count_)`. -/
def atPos (m : OrderedKeyMap V) (pos : Int) : Int :=
  if pos < m.count_ then pos else m.count_

/-- `dataSize()`: `count_*sizeof(Pair)`. -/
def dataSize (env : Env V) (m : OrderedKeyMap V) : Int := m.count_ * env.sizeofPair

/-- `data()`. -/
def data (m : OrderedKeyMap V) : Mem V := m.data_

/-- `fromRawData(data, dataSize)`: a map over a block it does not own, with
`dataSize_ = 0`.  The quotient `dataSize/sizeof(Pair)` is taken for a `dataSize` that is
not negative. -/
def fromRawData (env : Env V) (data : Mem V) (dataSize : Int) : OrderedKeyMap V :=
  let res := construct env 0
  let res := { res with dataSize_ := 0, data_ := data, count_ := dataSize / env.sizeofPair }
  if res.count_ ≠ 0 then
    { res with firstKey_ := res.itKey (res.atPos 0),
               lastKey_ := res.itKey (res.atPos (res.count_ - 1)) }
  else res

/-- `mid(from, to, reserve)`; `end()` is `constEnd()`. -/
def mid (env : Env V) (alg : FindAlgorithm) (m : OrderedKeyMap V) (kfrom kto : Nat)
    (reserve : Int) : OrderedKeyMap V :=
  let itStart := lowerBound env alg m kfrom
  let itEnd := lowerBound env alg m kto
  if itStart = m.constEnd ∨ itEnd < itStart then construct env 0
  else
    let itEnd := if itEnd = m.constEnd then itEnd - 1 else itEnd
    let count := itEnd - itStart + 1
    let res := construct env (count + reserve)
    let res := { res with data_ := copyBytes env res.data_ 0 m.data_ itStart
                                     (count * env.sizeofPair) }
    { res with firstKey_ := m.itKey itStart, lastKey_ := m.itKey itEnd, count_ := count }

/-- `reserve(k)`; the quotient `dataSize_/sizeof(Pair)` is taken for a `dataSize_` that
is not negative. -/
def reserve (env : Env V) (m : OrderedKeyMap V) (k : Int) : OrderedKeyMap V :=
  if k * env.sizeofPair > m.dataSize_ then realoc env m (k - m.dataSize_ / env.sizeofPair)
  else m

/-- The value a `ValueRef` of map `m` refers to. -/
def deref (m : OrderedKeyMap V) : ValueRef → V
  | ValueRef.entry pos => (m.dataAt pos).value
  | ValueRef.emptyVal => m.emptyVal

/-- The `do ... while (pos2 >= 0 && pos2 < count_)` loop of `valueNearPos`, with the
`return emptyVal` after it; `data` is the entry at the hint position and `none` means
that `fuel` iterations were not enough.  The product `p*(data2.key - key)` is taken in
the 32-bit unsigned type of the keys. -/
def valueNearLoop (m : OrderedKeyMap V) (key : Nat) (data : Pair V) (p : Int) :
    Nat → Int → Option ValueRef
  | 0, _ => none
  | fuel + 1, pos2 =>
    let pos2 := pos2 + p
    let data2 := m.dataAt pos2
    if data.key = key then some (ValueRef.entry pos2)
    else if (p * ((data2.key : Int) - (key : Int))) % 4294967296 > 0 then
      some ValueRef.emptyVal
    else if pos2 ≥ 0 ∧ pos2 < m.count_ then valueNearLoop m key data p fuel pos2
    else some ValueRef.emptyVal

/-- `valueNearPos(key, pos)`, as the target of the returned reference; the loop moves
`pos2` one step away from `pos` in every iteration and stops outside `[0, count)`, so
`count + 1` iterations are enough. -/
def valueNearPos (m : OrderedKeyMap V) (key : Nat) (pos : Int) : Option ValueRef :=
  if pos < m.count_ ∧ pos ≥ 0 then
    let data := m.dataAt pos
    if data.key = key then some (ValueRef.entry pos)
    else
      let p : Int := if key > data.key then 1 else -1
      valueNearLoop m key data p (m.count_.toNat + 1) pos
  else some ValueRef.emptyVal

/-- `findAlt(key)`. -/
def findAlt (env : Env V) (alg : FindAlgorithm) (m : OrderedKeyMap V) (key : Nat) : Int :=
  if m.empty ∨ key > m.lastKey_ ∨ key < m.firstKey_ then m.constEnd
  else if key = m.lastKey_ then m.count_ - 1
  else if key = m.firstKey_ then 0
  else internalSearch env alg m key SearchType.Find

/-- `upperBoundAlt(key)`. -/
def upperBoundAlt (env : Env V) (alg : FindAlgorithm) (m : OrderedKeyMap V) (key : Nat) :
    Int :=
  if m.empty ∨ key ≥ m.lastKey_ then m.constEnd
  else if key = m.firstKey_ then 1
  else if key < m.firstKey_ then 0
  else internalSearch env alg m key SearchType.UpperBound

/-- The const `operator [](key)`. -/
def indexConst (env : Env V) (alg : FindAlgorithm) (m : OrderedKeyMap V) (key : Nat) : V :=
  let it := find env alg m key
  if it ≠ m.constEnd then m.itValue it else m.emptyVal

/-- `value(key)`: `const_cast<OrderedKeyMap*>(this)->operator[] (key)`, which selects the
mutable `operator []`; the map afterwards and the value returned. -/
def value (env : Env V) (alg : FindAlgorithm) (m : OrderedKeyMap V) (key : Nat) :
    OrderedKeyMap V × V :=
  let r := index env alg m key
  (r.1, r.1.deref r.2)

/-- What the object representation decides for `equal`: `sizeof(TYPE)`, and the result of
`memcmp` on two blocks and a byte length.  A block is known here only by its entries,
not by its padding bytes, so `memcmp` is specified on a block and itself only. -/
structure ObjectRep (V : Type) where
  /-- The number `sizeof(TYPE)`. -/
  sizeofType : Int
  /-- The result of `memcmp(a, b, n)`. -/
  memcmp : Mem V → Mem V → Int → Int
  /-- A region compares equal to itself. -/
  memcmp_self : ∀ (d : Mem V) (n : Int), memcmp d d n = 0

/-- `equal(o)`; the loop runs over the positions `[0, o.count())`. -/
def equal [DecidableEq V] (env : Env V) (rep : ObjectRep V) (m o : OrderedKeyMap V) : Bool :=
  if m.count_ ≠ o.count ∨ m.firstKey_ ≠ o.firstKey_ ∨ m.lastKey_ ≠ o.lastKey_ then false
  else if rep.sizeofType % 8 = 0 then
    decide (rep.memcmp m.data_ o.data_ (o.count_ * env.sizeofPair) = 0)
  else
    (List.range o.count_.toNat).all (fun (i : Nat) =>
      !(decide (o.itKey (i : Int) ≠ m.itKey (i : Int)) ||
        decide (o.itValue (i : Int) ≠ m.itValue (i : Int))))

/-- The number of times the body of the loop of `internalSearch` (BinarySeparation) is
executed from `begin = b`, `end = e`; `none` if more than `fuel` times. -/
def binaryIterations (m : OrderedKeyMap V) (key : Nat) : Nat → Int → Int → Option Nat
  | 0, b, e => if b + 1 < e then none else some 0
  | fuel + 1, b, e =>
    if b + 1 < e then
      let pos := (e + b) / 2
      let atval := m.dataAt pos
      if atval.key = key then some 1
      else if key > atval.key then (binaryIterations m key fuel pos e).map (· + 1)
      else (binaryIterations m key fuel b pos).map (· + 1)
    else some 0

/-- The number of times the body of the loop of `internalSearch` (RelativePrediction) is
executed from `begin = b`, `end = e`; `none` if more than `fuel` times. -/
def relativeIterations (env : Env V) (m : OrderedKeyMap V) (key : Nat) :
    Nat → Int → Int → Nat → Nat → Option Nat
  | 0, b, e, _, _ => if b + 1 < e then none else some 0
  | fuel + 1, b, e, beginKey, endKey =>
    if b + 1 < e then
      let pos := clampProbe b e (env.predict b e key beginKey endKey)
      let atval := m.dataAt pos
      if atval.key = key then some 1
      else if key > atval.key then
        (relativeIterations env m key fuel pos e atval.key endKey).map (· + 1)
      else (relativeIterations env m key fuel b pos beginKey atval.key).map (· + 1)
    else some 0

/-- The sentinel of the empty map: `firstKey_ = lastKey_ = 0` when `count_` is 0. -/
def SentinelOk (m : OrderedKeyMap V) : Prop :=
  m.count_ = 0 → m.firstKey_ = 0 ∧ m.lastKey_ = 0

/-- Position `p` is the upper bound of `key`: every entry before it has a key that is at
most `key`, every entry from it on has a greater key. -/
def IsUpperBound (m : OrderedKeyMap V) (key : Nat) (p : Int) : Prop :=
  0 ≤ p ∧ p ≤ m.count_ ∧ (∀ i, 0 ≤ i → i < p → m.keyAt i ≤ key) ∧
    (∀ i, p ≤ i → i < m.count_ → key < m.keyAt i)

end OrderedKeyMap

/-- The layout of `Pair` for `KTYPE = quint32`, `TYPE = TestValue` (one `quint64`) on a
little-endian 64-bit ABI: key in bytes 0..3, padding in 4..7, value in 8..15. -/
def overlayU32U64 (r : Int) (old new : Pair Nat) : Pair Nat :=
  { key := if r ≥ 4 then new.key
           else new.key % 256 ^ r.toNat + old.key / 256 ^ r.toNat * 256 ^ r.toNat,
    value := if r ≤ 8 then old.value
             else new.value % 256 ^ (r - 8).toNat
                  + old.value / 256 ^ (r - 8).toNat * 256 ^ (r - 8).toNat }

/-- The instantiation of the test harness, `OrderedKeyMap<quint32, TestValue>`:
`sizeof(Pair) = 16`, `TestValue()` is zero, a fresh block reads as zero bytes, and the
probe of RelativePrediction is the interpolation formula in exact arithmetic. -/
def envU32U64 : Env Nat where
  sizeofPair := 16
  sizeofPair_pos := by decide
  typeDefault := 0
  overlay := overlayU32U64
  fresh := fun _ => { key := 0, value := 0 }
  predict := fun b e key beginKey endKey =>
    b + (e - b) * ((key : Int) - beginKey) / ((endKey : Int) - beginKey)

/-- The map of the scenario: `insert` of the keys 10, 20, 5, 15, in that order, into a
freshly constructed map. -/
def scenarioMap (alg : FindAlgorithm) : OrderedKeyMap Nat :=
  OrderedKeyMap.insertAll envU32U64 alg (OrderedKeyMap.construct envU32U64 BASESIZE)
    [(10, 1), (20, 2), (5, 3), (15, 4)]

/-- The view `fromRawData(m.data(), m.dataSize())` of the map of the scenario. -/
def scenarioView : OrderedKeyMap Nat :=
  OrderedKeyMap.fromRawData envU32U64 (scenarioMap FindAlgorithm.BinarySeparation).data
    ((scenarioMap FindAlgorithm.BinarySeparation).dataSize envU32U64)

/-- The operations of the scenario, then `remove(15)`. -/
def scenarioRemoveOps : List (OrderedKeyMap.Op Nat) :=
  [OrderedKeyMap.Op.insert 10 1, OrderedKeyMap.Op.insert 20 2, OrderedKeyMap.Op.insert 5 3,
   OrderedKeyMap.Op.insert 15 4, OrderedKeyMap.Op.remove 15]

/-- The operations of the scenario, then `remove(15)` and `insert(17, 9)`. -/
def scenarioRemoveInsertOps : List (OrderedKeyMap.Op Nat) :=
  scenarioRemoveOps ++ [OrderedKeyMap.Op.insert 17 9]

/-- A map with the single entry `(30, 1)`, above the keys of the scenario. -/
def scenarioTail : OrderedKeyMap Nat :=
  OrderedKeyMap.insertAll envU32U64 FindAlgorithm.BinarySeparation
    (OrderedKeyMap.construct envU32U64 10) [(30, 1)]

/-- The object representation of the test harness: `sizeof(TestValue) = 8`, and a
`memcmp` that compares the keys and values of the entries the length covers. -/
def repU32U64 : OrderedKeyMap.ObjectRep Nat where
  sizeofType := 8
  memcmp := fun a b n =>
    if (List.range ((n + 15) / 16).toNat).all (fun (i : Nat) => decide (a (i : Int) = b (i : Int)))
    then 0 else 1
  memcmp_self := by
    intro d n
    simp

end Smitto

/-! # Theorems -/

namespace Smitto

variable {V : Type}

/-! ## Raw block operations -/

theorem copyBytes_whole (env : Env V) (dst src : Mem V) (dpos spos k i : Int) (hk : 0 ≤ k) :
    copyBytes env dst dpos src spos (k * env.sizeofPair) i
      = if dpos ≤ i ∧ i < dpos + k then src (spos + (i - dpos)) else dst i := by
  have hS := env.sizeofPair_pos
  unfold copyBytes
  rcases eq_or_lt_of_le hk with h0 | hpos
  · subst h0
    have : ¬ (dpos ≤ i ∧ i < dpos) := by omega
    simp [this]
  · have hn : ¬ (k * env.sizeofPair ≤ 0) := not_le.mpr (Int.mul_pos hpos hS)
    have hq : k * env.sizeofPair / env.sizeofPair = k :=
      Int.mul_ediv_cancel k (ne_of_gt hS)
    have hr : k * env.sizeofPair % env.sizeofPair = 0 := Int.mul_emod_left k env.sizeofPair
    simp only [hn, hq, hr, if_false, lt_self_iff_false, and_false]

theorem copyBytes_below (env : Env V) (dst src : Mem V) (dpos spos n i : Int)
    (hi : i < dpos) : copyBytes env dst dpos src spos n i = dst i := by
  have hS := env.sizeofPair_pos
  unfold copyBytes
  by_cases hn : n ≤ 0
  · simp [hn]
  · have hq : 0 ≤ n / env.sizeofPair := Int.ediv_nonneg (by omega) (le_of_lt hS)
    have h1 : ¬ (dpos ≤ i ∧ i < dpos + n / env.sizeofPair) := by omega
    have h2 : ¬ (i = dpos + n / env.sizeofPair ∧ 0 < n % env.sizeofPair) := by omega
    simp [hn, h1, h2]

theorem copyBytes_front (env : Env V) (dst src : Mem V) (n c i : Int)
    (hc : c * env.sizeofPair ≤ n) (h0 : 0 ≤ i) (hi : i < c) :
    copyBytes env dst 0 src 0 n i = src i := by
  have hS := env.sizeofPair_pos
  have hcq : c ≤ n / env.sizeofPair := (Int.le_ediv_iff_mul_le hS).mpr hc
  have hn : ¬ (n ≤ 0) := by
    intro h
    have : 0 ≤ n / env.sizeofPair := by omega
    have h2 : n / env.sizeofPair ≤ 0 := by
      rcases eq_or_lt_of_le h with h | h
      · simp [h]
      · exact le_of_lt (Int.ediv_neg' h hS)
    omega
  unfold copyBytes
  have h1 : (0 : Int) ≤ i ∧ i < 0 + n / env.sizeofPair := by omega
  rw [if_neg hn, if_pos h1]
  congr 1
  omega

namespace OrderedKeyMap

/-! ## The search loops -/

theorem Sorted.lt_of_lt {m : OrderedKeyMap V} (hs : m.Sorted) {i j : Int} (hi : 0 ≤ i)
    (hij : i < j) (hj : j < m.count_) : m.keyAt i < m.keyAt j := by
  obtain ⟨d, rfl⟩ : ∃ d : Nat, j = i + 1 + d := ⟨(j - i - 1).toNat, by omega⟩
  clear hij
  induction d with
  | zero => simpa using hs i hi (by simpa using hj)
  | succ d ih =>
    have h1 := ih (by push_cast at hj ⊢; omega)
    have h2 := hs (i + 1 + d) (by omega) (by push_cast at hj ⊢; omega)
    have e : i + 1 + ((d + 1 : Nat) : Int) = i + 1 + d + 1 := by push_cast; ring
    rw [e]
    exact lt_trans h1 h2

theorem Sorted.le_of_le {m : OrderedKeyMap V} (hs : m.Sorted) {i j : Int} (hi : 0 ≤ i)
    (hij : i ≤ j) (hj : j < m.count_) : m.keyAt i ≤ m.keyAt j := by
  rcases eq_or_lt_of_le hij with h | h
  · rw [h]
  · exact le_of_lt (hs.lt_of_lt hi h hj)

theorem Sorted.inj {m : OrderedKeyMap V} (hs : m.Sorted) {i j : Int} (hi : 0 ≤ i)
    (hi2 : i < m.count_) (hj : 0 ≤ j) (hj2 : j < m.count_) (h : m.keyAt i = m.keyAt j) :
    i = j := by
  rcases lt_trichotomy i j with h1 | h1 | h1
  · have := hs.lt_of_lt hi h1 hj2; omega
  · exact h1
  · have := hs.lt_of_lt hj h1 hi2; omega

theorem binaryLoop_result (m : OrderedKeyMap V) (key : Nat) (stype : SearchType) :
    ∀ (fuel : Nat) (b e : Int), e - b ≤ fuel → b < e → m.keyAt b < key → key < m.keyAt e →
      LoopResult m key stype b e (binaryLoop m key stype fuel b e) := by
  intro fuel
  induction fuel with
  | zero => intro b e hf hbe; exfalso; simp at hf; omega
  | succ fuel ih =>
    intro b e hf hbe hb he
    rw [binaryLoop]
    by_cases hc : b + 1 < e
    · simp only [hc, if_true]
      have hp1 : b < (e + b) / 2 := by omega
      have hp2 : (e + b) / 2 < e := by omega
      by_cases hk : (m.dataAt ((e + b) / 2)).key = key
      · simp only [hk, if_true]
        exact Or.inl ⟨(e + b) / 2, hp1, hp2, hk, rfl⟩
      · simp only [hk, if_false]
        by_cases hg : key > (m.dataAt ((e + b) / 2)).key
        · simp only [hg, if_true]
          have := ih ((e + b) / 2) e (by push_cast at hf; omega) hp2 hg he
          rcases this with ⟨pos, h1, h2, h3, h4⟩ | ⟨e2, h1, h2, h3, h4, h5⟩
          · exact Or.inl ⟨pos, by omega, h2, h3, h4⟩
          · exact Or.inr ⟨e2, by omega, h2, h3, h4, h5⟩
        · simp only [hg, if_false]
          have hl : key < m.keyAt ((e + b) / 2) := by
            have : (m.dataAt ((e + b) / 2)).key ≠ key := hk
            unfold keyAt; omega
          have := ih b ((e + b) / 2) (by push_cast at hf; omega) hp1 hb hl
          rcases this with ⟨pos, h1, h2, h3, h4⟩ | ⟨e2, h1, h2, h3, h4, h5⟩
          · exact Or.inl ⟨pos, h1, by omega, h3, h4⟩
          · exact Or.inr ⟨e2, h1, by omega, h3, h4, h5⟩
    · simp only [hc, if_false]
      have : e - 1 = b := by omega
      exact Or.inr ⟨e, hbe, le_refl e, by rw [this]; exact hb, he, rfl⟩

theorem clampProbe_bounds (b e pos : Int) (h : b + 1 < e) :
    b < clampProbe b e pos ∧ clampProbe b e pos < e := by
  unfold clampProbe
  split_ifs <;> omega

theorem relativeLoop_result (env : Env V) (m : OrderedKeyMap V) (key : Nat)
    (stype : SearchType) :
    ∀ (fuel : Nat) (b e : Int) (beginKey endKey : Nat), e - b ≤ fuel → b < e →
      m.keyAt b < key → key < m.keyAt e →
      LoopResult m key stype b e (relativeLoop env m key stype fuel b e beginKey endKey) := by
  intro fuel
  induction fuel with
  | zero => intro b e _ _ hf hbe; exfalso; simp at hf; omega
  | succ fuel ih =>
    intro b e beginKey endKey hf hbe hb he
    rw [relativeLoop]
    by_cases hc : b + 1 < e
    · simp only [hc, if_true]
      obtain ⟨hp1, hp2⟩ := clampProbe_bounds b e (env.predict b e key beginKey endKey) hc
      generalize clampProbe b e (env.predict b e key beginKey endKey) = pos at hp1 hp2
      by_cases hk : (m.dataAt pos).key = key
      · simp only [hk, if_true]
        exact Or.inl ⟨pos, hp1, hp2, hk, rfl⟩
      · simp only [hk, if_false]
        by_cases hg : key > (m.dataAt pos).key
        · simp only [hg, if_true]
          have := ih pos e (m.dataAt pos).key endKey (by push_cast at hf; omega) hp2 hg he
          rcases this with ⟨q, h1, h2, h3, h4⟩ | ⟨e2, h1, h2, h3, h4, h5⟩
          · exact Or.inl ⟨q, by omega, h2, h3, h4⟩
          · exact Or.inr ⟨e2, by omega, h2, h3, h4, h5⟩
        · simp only [hg, if_false]
          have hl : key < m.keyAt pos := by
            have : (m.dataAt pos).key ≠ key := hk
            unfold keyAt; omega
          have := ih b pos beginKey (m.dataAt pos).key (by push_cast at hf; omega) hp1 hb hl
          rcases this with ⟨q, h1, h2, h3, h4⟩ | ⟨e2, h1, h2, h3, h4, h5⟩
          · exact Or.inl ⟨q, h1, by omega, h3, h4⟩
          · exact Or.inr ⟨e2, h1, by omega, h3, h4, h5⟩
    · simp only [hc, if_false]
      have : e - 1 = b := by omega
      exact Or.inr ⟨e, hbe, le_refl e, by rw [this]; exact hb, he, rfl⟩

/-- Fuel is never the reason the loop of BinarySeparation stops: with at least
`end - begin` iterations allowed, allowing one more changes nothing. -/
theorem binaryLoop_fuel (m : OrderedKeyMap V) (key : Nat) (stype : SearchType) :
    ∀ (fuel : Nat) (b e : Int), e - b ≤ fuel →
      binaryLoop m key stype (fuel + 1) b e = binaryLoop m key stype fuel b e := by
  intro fuel
  induction fuel with
  | zero =>
    intro b e hf
    simp only [binaryLoop]
    rw [if_neg (by simp at hf; omega)]
  | succ fuel ih =>
    intro b e hf
    rw [binaryLoop, binaryLoop]
    by_cases hc : b + 1 < e
    · simp only [hc, if_true]
      rw [ih ((e + b) / 2) e (by push_cast at hf; omega),
        ih b ((e + b) / 2) (by push_cast at hf; omega)]
    · simp only [hc, if_false]

/-- Fuel is never the reason the loop of RelativePrediction stops: with at least
`end - begin` iterations allowed, allowing one more changes nothing. -/
theorem relativeLoop_fuel (env : Env V) (m : OrderedKeyMap V) (key : Nat)
    (stype : SearchType) :
    ∀ (fuel : Nat) (b e : Int) (beginKey endKey : Nat), e - b ≤ fuel →
      relativeLoop env m key stype (fuel + 1) b e beginKey endKey
        = relativeLoop env m key stype fuel b e beginKey endKey := by
  intro fuel
  induction fuel with
  | zero =>
    intro b e beginKey endKey hf
    simp only [relativeLoop]
    rw [if_neg (by simp at hf; omega)]
  | succ fuel ih =>
    intro b e beginKey endKey hf
    rw [relativeLoop, relativeLoop]
    by_cases hc : b + 1 < e
    · simp only [hc, if_true]
      obtain ⟨hp1, hp2⟩ := clampProbe_bounds b e (env.predict b e key beginKey endKey) hc
      rw [ih _ e _ _ (by push_cast at hf; omega), ih b _ _ _ (by push_cast at hf; omega)]
    · simp only [hc, if_false]

theorem internalSearch_result (env : Env V) (alg : FindAlgorithm) (m : OrderedKeyMap V)
    (key : Nat) (stype : SearchType) (hc : 1 < m.count_) (hb : m.keyAt 0 < key)
    (he : key < m.keyAt (m.count_ - 1)) :
    LoopResult m key stype 0 (m.count_ - 1) (internalSearch env alg m key stype) := by
  have hfuel : m.count_ - 1 - 0 ≤ (((m.count_ - 1).toNat : Nat) : Int) := by
    rw [Int.toNat_of_nonneg (by omega)]; omega
  cases alg with
  | BinarySeparation =>
    exact binaryLoop_result m key stype _ 0 (m.count_ - 1) hfuel (by omega) hb he
  | RelativePrediction =>
    exact relativeLoop_result env m key stype _ 0 (m.count_ - 1) _ _ hfuel (by omega) hb he


/-! ## Lookup -/

theorem IsLowerBound.unique {m : OrderedKeyMap V} {key : Nat} {p q : Int}
    (hp : m.IsLowerBound key p) (hq : m.IsLowerBound key q) : p = q := by
  obtain ⟨p0, p1, p2, p3⟩ := hp
  obtain ⟨q0, q1, q2, q3⟩ := hq
  rcases lt_trichotomy p q with h | h | h
  · have a := p3 p (le_refl p) (by omega)
    have b := q2 p p0 h
    omega
  · exact h
  · have a := q3 q (le_refl q) (by omega)
    have b := p2 q q0 h
    omega

theorem lowerBound_spec (env : Env V) (alg : FindAlgorithm) (m : OrderedKeyMap V) (key : Nat)
    (hw : m.WellFormed) : m.IsLowerBound key (lowerBound env alg m key) := by
  obtain ⟨hn, hs, hc⟩ := hw
  unfold lowerBound
  by_cases he : m.count_ = 0
  · have : (m.empty = true ∨ key > m.lastKey_) := Or.inl (by simp [empty, he])
    rw [if_pos this]
    refine ⟨by simp [constEnd, he], by simp [constEnd], ?_, ?_⟩
    · intro i h0 h1; simp [constEnd, he] at h1; omega
    · intro i h0 h1; simp [constEnd] at h0; omega
  · have hpos : 0 < m.count_ := by omega
    obtain ⟨hf, hl⟩ := hc hpos
    by_cases h1 : key > m.lastKey_
    · rw [if_pos (Or.inr h1)]
      refine ⟨by simp [constEnd]; omega, by simp [constEnd], ?_, ?_⟩
      · intro i h0 hi
        simp only [constEnd] at hi
        have := hs.le_of_le h0 (show i ≤ m.count_ - 1 by omega) (by omega)
        omega
      · intro i h0 hi; simp [constEnd] at h0; omega
    · have hne : ¬ (m.empty = true ∨ key > m.lastKey_) := by
        simp [empty, he]; omega
      rw [if_neg hne]
      by_cases h2 : key = m.lastKey_
      · rw [if_pos h2]
        refine ⟨by omega, by omega, ?_, ?_⟩
        · intro i h0 hi
          have := hs.lt_of_lt h0 hi (by omega)
          omega
        · intro i h0 hi
          have : i = m.count_ - 1 := by omega
          rw [this]; omega
      · rw [if_neg h2]
        by_cases h3 : key ≤ m.firstKey_
        · rw [if_pos h3]
          refine ⟨le_refl 0, hn, ?_, ?_⟩
          · intro i h0 hi; omega
          · intro i h0 hi
            have := hs.le_of_le (le_refl 0) h0 hi
            omega
        · rw [if_neg h3]
          have hc1 : 1 < m.count_ := by
            by_contra hcc
            have : m.count_ = 1 := by omega
            rw [this] at hl
            simp at hl
            omega
          have hr := internalSearch_result env alg m key SearchType.LowerBound hc1
            (by omega) (by omega)
          rcases hr with ⟨pos, a1, a2, a3, a4⟩ | ⟨e2, a1, a2, a3, a4, a5⟩
          · simp at a4
            rw [a4]
            refine ⟨by omega, by omega, ?_, ?_⟩
            · intro i h0 hi
              have := hs.lt_of_lt h0 hi (by omega)
              omega
            · intro i h0 hi
              have := hs.le_of_le (by omega) h0 hi
              omega
          · simp [searchExit] at a5
            rw [a5]
            refine ⟨by omega, by omega, ?_, ?_⟩
            · intro i h0 hi
              have := hs.le_of_le h0 (show i ≤ e2 - 1 by omega) (by omega)
              omega
            · intro i h0 hi
              have := hs.le_of_le (by omega) h0 hi
              omega

theorem lowerBound_eq_of_isLowerBound (env : Env V) (alg : FindAlgorithm)
    (m : OrderedKeyMap V) (key : Nat) (hw : m.WellFormed) {p : Int}
    (hp : m.IsLowerBound key p) : lowerBound env alg m key = p :=
  (lowerBound_spec env alg m key hw).unique hp

theorem itKey_of_lt (m : OrderedKeyMap V) {p : Int} (h0 : 0 ≤ p) (h1 : p < m.count_) :
    m.itKey p = m.keyAt p := by
  unfold itKey keyAt
  rw [if_neg (by omega)]

/-- What `upperBound` returns on a well-formed map. -/
theorem upperBound_spec (env : Env V) (alg : FindAlgorithm) (m : OrderedKeyMap V) (key : Nat)
    (hw : m.WellFormed) :
    0 ≤ upperBound env alg m key ∧ upperBound env alg m key ≤ m.count_ ∧
    (∀ i, 0 ≤ i → i < upperBound env alg m key → m.keyAt i ≤ key) ∧
    (∀ i, upperBound env alg m key ≤ i → i < m.count_ → key < m.keyAt i) := by
  obtain ⟨p0, p1, p2, p3⟩ := lowerBound_spec env alg m key hw
  unfold upperBound
  simp only
  generalize lowerBound env alg m key = p at p0 p1 p2 p3
  by_cases h1 : m.constEnd = p
  · rw [if_pos (Or.inl h1)]
    simp only [constEnd] at h1
    refine ⟨p0, p1, fun i h0 hi => le_of_lt (p2 i h0 hi), fun i h0 hi => ?_⟩
    omega
  · have hlt : p < m.count_ := by
      simp only [constEnd] at h1; omega
    rw [itKey_of_lt m p0 hlt]
    by_cases h2 : key < m.keyAt p
    · rw [if_pos (Or.inr h2)]
      refine ⟨p0, p1, fun i h0 hi => le_of_lt (p2 i h0 hi), fun i h0 hi => ?_⟩
      have := hw.sorted.le_of_le p0 h0 hi
      omega
    · rw [if_neg (by simp only [not_or]; exact ⟨h1, h2⟩)]
      have heq : m.keyAt p = key := by
        have := p3 p (le_refl p) hlt
        omega
      refine ⟨by omega, by omega, fun i h0 hi => ?_, fun i h0 hi => ?_⟩
      · have := hw.sorted.le_of_le h0 (show i ≤ p by omega) hlt
        omega
      · have := hw.sorted.lt_of_lt p0 (show p < i by omega) hi
        omega

/-- What `find` returns on a well-formed map. -/
theorem find_spec (env : Env V) (alg : FindAlgorithm) (m : OrderedKeyMap V) (key : Nat)
    (hw : m.WellFormed) :
    (∀ i, 0 ≤ i → i < m.count_ → m.keyAt i = key → find env alg m key = i) ∧
    ((∀ i, 0 ≤ i → i < m.count_ → m.keyAt i ≠ key) → find env alg m key = m.constEnd) := by
  obtain ⟨p0, p1, p2, p3⟩ := lowerBound_spec env alg m key hw
  unfold find
  simp only
  generalize lowerBound env alg m key = p at p0 p1 p2 p3
  constructor
  · intro i h0 hi hk
    have hpi : p = i := by
      rcases lt_trichotomy p i with h | h | h
      · have a := p3 p (le_refl p) (by omega)
        have b := hw.sorted.lt_of_lt p0 h hi
        omega
      · exact h
      · have := p2 i h0 h
        omega
    subst hpi
    rw [itKey_of_lt m h0 hi, if_pos (Or.inr hk)]
  · intro hno
    by_cases h1 : p = m.constEnd
    · rw [if_pos (Or.inl h1)]; exact h1
    · have hlt : p < m.count_ := by
        simp only [constEnd] at h1; omega
      rw [itKey_of_lt m p0 hlt]
      rw [if_neg (by simp only [not_or]; exact ⟨h1, hno p p0 hlt⟩)]


/-! ## Insertion -/

theorem insertBefore_insertedAt (env : Env V) (m : OrderedKeyMap V) (p : Int) (key : Nat)
    (v : V) (h0 : 0 ≤ p) (h1 : p ≤ m.count_) :
    InsertedAt m (insertBefore env m p key v) p { key := key, value := v } := by
  have hcp : 0 ≤ m.count_ - p := by omega
  refine ⟨?_, ?_, ?_, ?_⟩
  · unfold insertBefore
    simp only [reserveData]
    split_ifs <;> rfl
  · intro i hi0 hip
    unfold insertBefore dataAt
    simp only [reserveData]
    split_ifs <;>
      simp only [writePair, if_neg (ne_of_lt hip), copyBytes_whole _ _ _ _ _ _ _ hcp,
        copyBytes_whole _ _ _ _ _ _ _ h0] <;>
      rw [if_neg (by omega)] <;> first | rfl | (rw [if_pos (by omega)]; congr 1; omega) | omega
  · unfold insertBefore dataAt
    simp only [reserveData]
    split_ifs <;> simp [writePair]
  · intro i hpi hic
    have hne : i + 1 ≠ p := by omega
    have hin : p + 1 ≤ i + 1 ∧ i + 1 < p + 1 + (m.count_ - p) := by omega
    unfold insertBefore dataAt
    simp only [reserveData]
    split_ifs <;>
      simp only [writePair, if_neg hne, copyBytes_whole _ _ _ _ _ _ _ hcp, if_pos hin] <;>
      congr 1 <;> omega


theorem insertBefore_fields (env : Env V) (m : OrderedKeyMap V) (p : Int) (key : Nat)
    (v : V) :
    (insertBefore env m p key v).firstKey_ = (if p = 0 then key else m.firstKey_) ∧
    (insertBefore env m p key v).lastKey_ = m.lastKey_ ∧
    (insertBefore env m p key v).emptyVal = m.emptyVal := by
  unfold insertBefore
  simp only [reserveData]
  split_ifs <;> simp

theorem insertBefore_hasCapacity (env : Env V) (m : OrderedKeyMap V) (p : Int) (key : Nat)
    (v : V) (hcap : HasCapacity env m) : HasCapacity env (insertBefore env m p key v) := by
  have hS := env.sizeofPair_pos
  obtain ⟨c1, c2⟩ := hcap
  have e : (m.count_ + 1 + 1 - 1) * env.sizeofPair = m.count_ * env.sizeofPair + env.sizeofPair := by
    ring
  unfold insertBefore HasCapacity
  simp only [reserveData]
  split_ifs <;> simp only [] <;> constructor <;> nlinarith

theorem insert_hit (env : Env V) (alg : FindAlgorithm) (m : OrderedKeyMap V) (key : Nat)
    (v : V) (hw : m.WellFormed) (hd : m.dataSize_ ≠ 0) {p : Int} (h0 : 0 ≤ p)
    (h1 : p < m.count_) (hk : m.keyAt p = key) :
    insert env alg m key v = ({ m with data_ := writeValue m.data_ p v }, p) := by
  obtain ⟨hf, hl⟩ := hw.cache (by omega)
  have hle := hw.sorted.le_of_le h0 (show p ≤ m.count_ - 1 by omega) (by omega)
  have hlb : lowerBound env alg m key = p := by
    apply lowerBound_eq_of_isLowerBound env alg m key hw
    refine ⟨h0, le_of_lt h1, ?_, ?_⟩
    · intro i hi0 hip
      have := hw.sorted.lt_of_lt hi0 hip h1
      omega
    · intro i hpi hic
      have := hw.sorted.le_of_le h0 hpi hic
      omega
  unfold insert
  simp only [if_neg hd]
  rw [if_neg (by simp [empty]; omega), if_neg (by omega), hlb, itKey_of_lt m h0 h1,
    if_pos hk]


theorem realoc_double (env : Env V) (m : OrderedKeyMap V) (hcap : HasCapacity env m) :
    (realoc env m m.dataSize_).count_ = m.count_ ∧
    (realoc env m m.dataSize_).firstKey_ = m.firstKey_ ∧
    (realoc env m m.dataSize_).lastKey_ = m.lastKey_ ∧
    (realoc env m m.dataSize_).emptyVal = m.emptyVal ∧
    (realoc env m m.dataSize_).dataSize_ = 2 * m.dataSize_ ∧
    (∀ i, 0 ≤ i → i < m.count_ → (realoc env m m.dataSize_).dataAt i = m.dataAt i) := by
  have hS := env.sizeofPair_pos
  obtain ⟨c1, c2⟩ := hcap
  have hpos : m.dataSize_ + m.dataSize_ > 0 := by omega
  unfold realoc reserveData
  simp only [if_pos hpos]
  refine ⟨(by first | rfl | trivial), (by first | rfl | trivial), (by first | rfl | trivial), (by first | rfl | trivial), by ring, ?_⟩
  intro i h0 h1
  unfold dataAt
  simp only [add_sub_cancel_right]
  exact copyBytes_front env _ _ _ m.count_ i c2 h0 h1

theorem insert_miss (env : Env V) (alg : FindAlgorithm) (m : OrderedKeyMap V) (key : Nat)
    (v : V) (hw : m.WellFormed) (hcap : HasCapacity env m) (hno : ¬ m.HasKey key) :
    ∃ p, m.IsLowerBound key p ∧
      InsertedAt m (insert env alg m key v).1 p { key := key, value := v } ∧
      (insert env alg m key v).1.firstKey_ = (if p = 0 then key else m.firstKey_) ∧
      (insert env alg m key v).1.lastKey_ = (if p = m.count_ then key else m.lastKey_) ∧
      HasCapacity env (insert env alg m key v).1 ∧
      (insert env alg m key v).2 = p := by
  have hS := env.sizeofPair_pos
  have hd : m.dataSize_ ≠ 0 := by have := hcap.1; omega
  have hlb := lowerBound_spec env alg m key hw
  obtain ⟨hn, hs, hc⟩ := hw
  unfold insert
  simp only [if_neg hd]
  by_cases he : m.count_ = 0
  · rw [if_pos (by simp [empty, he])]
    refine ⟨0, ⟨le_refl 0, by omega, fun i a b => by omega, fun i a b => by omega⟩,
      ⟨rfl, fun i a b => by omega, by simp [dataAt, writePair], fun i a b => by omega⟩,
      by simp, by simp [he], ?_, rfl⟩
    obtain ⟨c1, c2⟩ := hcap
    exact ⟨c1, by simp only [he]; omega⟩
  · have hpos : 0 < m.count_ := by omega
    obtain ⟨hf, hl⟩ := hc hpos
    rw [if_neg (by simp [empty, he])]
    by_cases h1 : key > m.lastKey_
    · rw [if_pos h1]
      have hp : m.IsLowerBound key m.count_ := by
        refine ⟨hn, le_refl _, ?_, fun i a b => by omega⟩
        intro i h0 hi
        have := hs.le_of_le h0 (show i ≤ m.count_ - 1 by omega) (by omega)
        omega
      refine ⟨m.count_, hp, ?_⟩
      by_cases hg : (m.count_ + 1) * env.sizeofPair > m.dataSize_
      · obtain ⟨r1, r2, r3, r4, r5, r6⟩ := realoc_double env m hcap
        simp only [if_pos hg, r1]
        refine ⟨⟨rfl, ?_, by simp [dataAt, writePair], fun i a b => by omega⟩, ?_,
          by simp, ?_, trivial⟩
        · intro i h0 hi
          have := r6 i h0 hi
          simp only [dataAt] at this ⊢
          simp only [writePair, if_neg (ne_of_lt hi)]
          exact this
        · simp only [r2]; rw [if_neg (by omega)]
        · obtain ⟨c1, c2⟩ := hcap
          unfold HasCapacity
          simp only [r5]
          constructor <;> nlinarith
      · simp only [if_neg hg]
        refine ⟨⟨rfl, ?_, by simp [dataAt, writePair], fun i a b => by omega⟩, ?_,
          by simp, ?_, trivial⟩
        · intro i h0 hi
          simp only [dataAt, writePair, if_neg (ne_of_lt hi)]
        · rw [if_neg (by omega)]
        · exact ⟨hcap.1, by simp only []; omega⟩
    · rw [if_neg h1]
      generalize lowerBound env alg m key = p at hlb
      obtain ⟨p0, p1, p2, p3⟩ := hlb
      have hplt : p < m.count_ := by
        by_contra hcon
        have : p = m.count_ := by omega
        subst this
        have := p2 (m.count_ - 1) (by omega) (by omega)
        omega
      have hne : m.keyAt p ≠ key := fun h => hno ⟨p, p0, hplt, h⟩
      simp only [itKey_of_lt m p0 hplt, if_neg hne]
      obtain ⟨f1, f2, _⟩ := insertBefore_fields env m p key v
      refine ⟨p, ⟨p0, p1, p2, p3⟩, insertBefore_insertedAt env m p key v p0 p1, f1, ?_,
        insertBefore_hasCapacity env m p key v hcap, rfl⟩
      rw [f2, if_neg (by omega)]


theorem wellFormed_of_insertedAt {m m2 : OrderedKeyMap V} {p : Int} {key : Nat} {v : V}
    (hw : m.WellFormed) (hp : m.IsLowerBound key p) (hno : ¬ m.HasKey key)
    (hi : InsertedAt m m2 p { key := key, value := v })
    (hf : m2.firstKey_ = if p = 0 then key else m.firstKey_)
    (hl : m2.lastKey_ = if p = m.count_ then key else m.lastKey_) : m2.WellFormed := by
  obtain ⟨hn, hs, hc⟩ := hw
  obtain ⟨p0, p1, p2, p3⟩ := hp
  obtain ⟨i1, i2, i3, i4⟩ := hi
  have kbelow : ∀ i, 0 ≤ i → i < p → m2.keyAt i = m.keyAt i := fun i a b => by
    unfold keyAt; rw [i2 i a b]
  have kat : m2.keyAt p = key := by unfold keyAt; rw [i3]
  have kabove : ∀ i, p ≤ i → i < m.count_ → m2.keyAt (i + 1) = m.keyAt i := fun i a b => by
    unfold keyAt; rw [i4 i a b]
  have hstrict : ∀ i, p ≤ i → i < m.count_ → key < m.keyAt i := by
    intro i a b
    have h1 := p3 i a b
    have h2 : m.keyAt i ≠ key := fun h => hno ⟨i, by omega, b, h⟩
    omega
  refine ⟨by omega, ?_, ?_⟩
  · intro i h0 h1
    rw [i1] at h1
    rcases lt_trichotomy (i + 1) p with h | h | h
    · rw [kbelow i h0 (by omega), kbelow (i + 1) (by omega) h]
      exact hs i h0 (by omega)
    · rw [kbelow i h0 (by omega), h, kat]
      exact p2 i h0 (by omega)
    · rcases eq_or_lt_of_le (show p ≤ i by omega) with h2 | h2
      · rw [← h2, kat, kabove p (le_refl p) (by omega)]
        exact hstrict p (le_refl p) (by omega)
      · have e := kabove (i - 1) (by omega) (by omega)
        rw [show i - 1 + 1 = i by omega] at e
        rw [e, kabove i (by omega) (by omega)]
        have := hs (i - 1) (by omega) (by omega)
        rw [show i - 1 + 1 = i by omega] at this
        exact this
  · intro _
    constructor
    · rw [hf]
      by_cases h : p = 0
      · rw [if_pos h, ← kat, h]
      · rw [if_neg h, kbelow 0 (le_refl 0) (by omega)]
        exact (hc (by omega)).1
    · rw [hl, i1, show m.count_ + 1 - 1 = m.count_ by omega]
      by_cases h : p = m.count_
      · rw [if_pos h, ← kat, h]
      · rw [if_neg h]
        have e := kabove (m.count_ - 1) (by omega) (by omega)
        rw [show m.count_ - 1 + 1 = m.count_ by omega] at e
        rw [e]
        exact (hc (by omega)).2

theorem hasKey_of_insertedAt {m m2 : OrderedKeyMap V} {p : Int} {key : Nat} {v : V}
    (p0 : 0 ≤ p) (p1 : p ≤ m.count_)
    (hi : InsertedAt m m2 p { key := key, value := v }) (k : Nat) :
    m2.HasKey k ↔ k = key ∨ m.HasKey k := by
  obtain ⟨i1, i2, i3, i4⟩ := hi
  constructor
  · rintro ⟨i, h0, h1, h2⟩
    rw [i1] at h1
    rcases lt_trichotomy i p with h | h | h
    · right
      exact ⟨i, h0, by omega, by rw [← h2]; unfold keyAt; rw [i2 i h0 h]⟩
    · left
      rw [← h2, h]; unfold keyAt; rw [i3]
    · right
      have e := i4 (i - 1) (by omega) (by omega)
      rw [show i - 1 + 1 = i by omega] at e
      exact ⟨i - 1, by omega, by omega, by rw [← h2]; unfold keyAt; rw [e]⟩
  · rintro (h | ⟨i, h0, h1, h2⟩)
    · exact ⟨p, p0, by omega, by unfold keyAt; rw [i3, h]⟩
    · by_cases hip : i < p
      · exact ⟨i, h0, by omega, by rw [← h2]; unfold keyAt; rw [i2 i h0 hip]⟩
      · exact ⟨i + 1, by omega, by omega, by
          rw [← h2]; unfold keyAt; rw [i4 i (by omega) h1]⟩

theorem insert_of_dataSize_zero (env : Env V) (alg : FindAlgorithm) (m : OrderedKeyMap V)
    (key : Nat) (v : V) (hd : m.dataSize_ = 0) :
    insert env alg m key v
      = insert env alg (reserveData env m (BASESIZE * env.sizeofPair)) key v := by
  have hS := env.sizeofPair_pos
  have hpos : BASESIZE * env.sizeofPair > 0 := by unfold BASESIZE; omega
  have hne : (reserveData env m (BASESIZE * env.sizeofPair)).dataSize_ ≠ 0 := by
    unfold reserveData; rw [if_pos hpos]; simp only []; omega
  conv_lhs => unfold insert
  conv_rhs => unfold insert
  simp only [if_pos hd, if_neg hne]

/-- One `insert` on a well-formed map whose block has room, or which has no block and
no entries yet. -/
theorem insert_step (env : Env V) (alg : FindAlgorithm) (m : OrderedKeyMap V) (key : Nat)
    (v : V) (hw : m.WellFormed)
    (hcap : HasCapacity env m ∨ (m.dataSize_ = 0 ∧ m.count_ = 0)) :
    (insert env alg m key v).1.WellFormed ∧ HasCapacity env (insert env alg m key v).1 ∧
    (∀ k, (insert env alg m key v).1.HasKey k ↔ k = key ∨ m.HasKey k) ∧
    (∀ i, 0 ≤ i → i < (insert env alg m key v).1.count_ →
      (insert env alg m key v).1.dataAt i = { key := key, value := v } ∨
      ((insert env alg m key v).1.keyAt i ≠ key ∧
        ∃ j, 0 ≤ j ∧ j < m.count_ ∧ (insert env alg m key v).1.dataAt i = m.dataAt j)) := by
  have hS := env.sizeofPair_pos
  have main : ∀ m : OrderedKeyMap V, m.WellFormed → HasCapacity env m →
      (insert env alg m key v).1.WellFormed ∧ HasCapacity env (insert env alg m key v).1 ∧
      (∀ k, (insert env alg m key v).1.HasKey k ↔ k = key ∨ m.HasKey k) ∧
      (∀ i, 0 ≤ i → i < (insert env alg m key v).1.count_ →
        (insert env alg m key v).1.dataAt i = { key := key, value := v } ∨
        ((insert env alg m key v).1.keyAt i ≠ key ∧
          ∃ j, 0 ≤ j ∧ j < m.count_ ∧ (insert env alg m key v).1.dataAt i = m.dataAt j)) := by
    intro m hw hcap
    by_cases hk : m.HasKey key
    · obtain ⟨p, p0, p1, p2⟩ := hk
      have hd : m.dataSize_ ≠ 0 := by have := hcap.1; omega
      rw [insert_hit env alg m key v hw hd p0 p1 p2]
      have hkeys : ∀ i, ({ m with data_ := writeValue m.data_ p v } : OrderedKeyMap V).keyAt i
          = m.keyAt i := by
        intro i
        simp only [keyAt, dataAt, writeValue]
        split_ifs <;> rfl
      refine ⟨⟨hw.count_nonneg, ?_, ?_⟩, hcap, ?_, ?_⟩
      · intro i h0 h1
        rw [hkeys, hkeys]
        exact hw.sorted i h0 h1
      · intro h
        rw [hkeys, hkeys]
        exact hw.cache h
      · intro k
        constructor
        · rintro ⟨i, h0, h1, h2⟩
          exact Or.inr ⟨i, h0, h1, by rw [← h2, hkeys]⟩
        · rintro (h | ⟨i, h0, h1, h2⟩)
          · exact ⟨p, p0, p1, by rw [hkeys, h, p2]⟩
          · exact ⟨i, h0, h1, by rw [hkeys, h2]⟩
      · intro i h0 h1
        by_cases hip : i = p
        · left
          subst hip
          simp only [dataAt, writeValue, if_true]
          have : (m.data_ i).key = key := p2
          rw [this]
        · right
          refine ⟨?_, i, h0, h1, ?_⟩
          · rw [hkeys]
            intro h
            exact hip (hw.sorted.inj h0 h1 p0 p1 (by rw [h, p2]))
          · simp only [dataAt, writeValue, if_neg hip]
    · obtain ⟨p, hp, hi, hf, hl, hc2, _⟩ := insert_miss env alg m key v hw hcap hk
      refine ⟨wellFormed_of_insertedAt hw hp hk hi hf hl, hc2,
        hasKey_of_insertedAt hp.1 hp.2.1 hi, ?_⟩
      obtain ⟨i1, i2, i3, i4⟩ := hi
      have q0 := hp.1
      have q1 := hp.2.1
      intro i h0 h1
      rw [i1] at h1
      rcases lt_trichotomy i p with h | h | h
      · right
        refine ⟨?_, i, h0, by omega, i2 i h0 h⟩
        unfold keyAt; rw [i2 i h0 h]
        intro hcon
        exact hk ⟨i, h0, by omega, hcon⟩
      · left; rw [h]; exact i3
      · right
        have e := i4 (i - 1) (by omega) (by omega)
        rw [show i - 1 + 1 = i by omega] at e
        refine ⟨?_, i - 1, by omega, by omega, e⟩
        unfold keyAt; rw [e]
        intro hcon
        exact hk ⟨i - 1, by omega, by omega, hcon⟩
  rcases hcap with hcap | ⟨hd, hz⟩
  · exact main m hw hcap
  · rw [insert_of_dataSize_zero env alg m key v hd]
    have hpos : BASESIZE * env.sizeofPair > 0 := by unfold BASESIZE; omega
    have hr : reserveData env m (BASESIZE * env.sizeofPair)
        = { m with data_ := env.fresh, dataSize_ := BASESIZE * env.sizeofPair } := by
      unfold reserveData; rw [if_pos hpos]
    have hcount : (reserveData env m (BASESIZE * env.sizeofPair)).count_ = 0 := by
      rw [hr]; exact hz
    have hwr : (reserveData env m (BASESIZE * env.sizeofPair)).WellFormed :=
      ⟨by omega, fun i a b => by omega, fun h => by omega⟩
    have hcr : HasCapacity env (reserveData env m (BASESIZE * env.sizeofPair)) := by
      unfold HasCapacity
      rw [hcount, hr]
      simp only []
      unfold BASESIZE
      constructor <;> omega
    obtain ⟨a, b, c, d⟩ := main _ hwr hcr
    refine ⟨a, b, ?_, ?_⟩
    · intro k
      rw [c k]
      have e1 : ¬ (reserveData env m (BASESIZE * env.sizeofPair)).HasKey k := by
        rintro ⟨i, h0, h1, _⟩; omega
      have e2 : ¬ m.HasKey k := by
        rintro ⟨i, h0, h1, _⟩; omega
      simp [e1, e2]
    · intro i h0 h1
      rcases d i h0 h1 with h | ⟨_, j, j0, j1, _⟩
      · exact Or.inl h
      · omega


/-! ## The entries as a list -/

theorem mem_entries (m : OrderedKeyMap V) (e : Pair V) :
    e ∈ m.entries ↔ ∃ i, 0 ≤ i ∧ i < m.count_ ∧ m.dataAt i = e := by
  unfold entries
  simp only [List.mem_map, List.mem_range]
  constructor
  · rintro ⟨n, hn, rfl⟩
    exact ⟨n, by omega, by omega, rfl⟩
  · rintro ⟨i, h0, h1, rfl⟩
    exact ⟨i.toNat, by omega, by rw [Int.toNat_of_nonneg h0]⟩

theorem mem_keys (m : OrderedKeyMap V) (k : Nat) : k ∈ m.keys ↔ m.HasKey k := by
  unfold keys HasKey keyAt
  simp only [List.mem_map, mem_entries]
  constructor
  · rintro ⟨e, ⟨i, h0, h1, rfl⟩, rfl⟩
    exact ⟨i, h0, h1, rfl⟩
  · rintro ⟨i, h0, h1, rfl⟩
    exact ⟨_, ⟨i, h0, h1, rfl⟩, rfl⟩

theorem length_keys (m : OrderedKeyMap V) (hn : 0 ≤ m.count_) :
    (m.keys.length : Int) = m.count_ := by
  unfold keys entries
  simp only [List.length_map, List.length_range]
  omega

theorem keys_sorted (m : OrderedKeyMap V) (hs : m.Sorted) : m.keys.Sorted (· < ·) := by
  unfold keys entries
  rw [List.map_map]
  unfold List.Sorted
  rw [List.pairwise_map]
  refine List.Pairwise.imp_of_mem ?_ (List.pairwise_lt_range m.count_.toNat)
  intro a b ha hb hab
  rw [List.mem_range] at ha hb
  exact hs.lt_of_lt (i := (a : Int)) (j := (b : Int)) (by omega) (by omega) (by omega)

theorem keys_eq_sort (m : OrderedKeyMap V) (hs : m.Sorted) (l : List Nat)
    (h : ∀ k, m.HasKey k ↔ k ∈ l) : m.keys = l.toFinset.sort (· ≤ ·) := by
  have hsorted := keys_sorted m hs
  have hnodup : m.keys.Nodup := hsorted.nodup
  have hle : m.keys.Sorted (· ≤ ·) := hsorted.le_of_lt
  have e : m.keys.toFinset = l.toFinset := by
    ext k
    simp only [List.mem_toFinset, mem_keys, h]
  rw [← e]
  exact ((List.toFinset_sort (· ≤ ·) hnodup).mpr hle).symm

/-! ## Sequences of insertions -/

theorem construct_spec (env : Env V) (size : Int) :
    (construct env size).WellFormed ∧ (construct env size).count_ = 0 ∧
    (HasCapacity env (construct env size) ∨
      ((construct env size).dataSize_ = 0 ∧ (construct env size).count_ = 0)) := by
  have hS := env.sizeofPair_pos
  unfold construct
  simp only
  by_cases h : size > 0
  · have hpos : size * env.sizeofPair > 0 := Int.mul_pos h hS
    rw [if_pos h]
    unfold reserveData
    rw [if_pos hpos]
    refine ⟨⟨le_refl 0, fun i a b => ?_, fun hc => ?_⟩, rfl, Or.inl ⟨?_, ?_⟩⟩
    · simp only [] at b; omega
    · simp only [] at hc; omega
    · simp only []; nlinarith
    · simp only []; omega
  · rw [if_neg h]
    refine ⟨⟨le_refl 0, fun i a b => ?_, fun hc => ?_⟩, rfl, Or.inr ⟨rfl, rfl⟩⟩
    · simp only [] at b; omega
    · simp only [] at hc; omega

theorem insertAll_snoc (env : Env V) (alg : FindAlgorithm) (m : OrderedKeyMap V)
    (kvs : List (Nat × V)) (kv : Nat × V) :
    insertAll env alg m (kvs ++ [kv])
      = (insert env alg (insertAll env alg m kvs) kv.1 kv.2).1 := by
  unfold insertAll
  rw [List.foldl_append]
  rfl

theorem lastInserted_snoc (kvs : List (Nat × V)) (kv : Nat × V) (k : Nat) :
    lastInserted (kvs ++ [kv]) k = if k = kv.1 then some kv.2 else lastInserted kvs k := by
  unfold lastInserted
  rw [List.reverse_append]
  simp only [List.reverse_cons, List.reverse_nil, List.nil_append, List.singleton_append]
  rw [List.lookup_cons]
  by_cases h : k = kv.1
  · simp [h]
  · have : (k == kv.1) = false := by simpa using h
    simp [h, this]

/-- The state after a sequence of insertions into a freshly constructed map. -/
theorem insertAll_invariant (env : Env V) (alg : FindAlgorithm) (size : Int)
    (kvs : List (Nat × V)) :
    (insertAll env alg (construct env size) kvs).WellFormed ∧
    (HasCapacity env (insertAll env alg (construct env size) kvs) ∨
      ((insertAll env alg (construct env size) kvs).dataSize_ = 0 ∧
        (insertAll env alg (construct env size) kvs).count_ = 0)) ∧
    (∀ k, (insertAll env alg (construct env size) kvs).HasKey k ↔ k ∈ kvs.map Prod.fst) ∧
    (∀ i, 0 ≤ i → i < (insertAll env alg (construct env size) kvs).count_ →
      lastInserted kvs ((insertAll env alg (construct env size) kvs).keyAt i)
        = some ((insertAll env alg (construct env size) kvs).valueAt i)) := by
  induction kvs using List.reverseRecOn with
  | nil =>
    obtain ⟨a, b, c⟩ := construct_spec env size
    have e : insertAll env alg (construct env size) [] = construct env size := rfl
    rw [e]
    refine ⟨a, c, ?_, ?_⟩
    · intro k
      simp only [List.map_nil, List.not_mem_nil, iff_false]
      rintro ⟨i, h0, h1, _⟩
      omega
    · intro i h0 h1; omega
  | append_singleton kvs kv ih =>
    obtain ⟨a, b, c, d⟩ := ih
    rw [insertAll_snoc]
    generalize insertAll env alg (construct env size) kvs = m at a b c d
    obtain ⟨s1, s2, s3, s4⟩ := insert_step env alg m kv.1 kv.2 a b
    refine ⟨s1, Or.inl s2, ?_, ?_⟩
    · intro k
      rw [s3 k, c k]
      simp only [List.map_append, List.map_cons, List.map_nil, List.mem_append,
        List.mem_singleton]
      tauto
    · intro i h0 h1
      rw [lastInserted_snoc]
      rcases s4 i h0 h1 with h | ⟨hne, j, j0, j1, hj⟩
      · unfold keyAt valueAt
        rw [h]
        simp
      · rw [if_neg hne]
        unfold keyAt valueAt
        rw [hj]
        exact d j j0 j1

end OrderedKeyMap

end Smitto

namespace Smitto

namespace OrderedKeyMap

variable {V : Type}

/-! ## The map of the scenario -/

theorem scenarioMap_wellFormed (alg : FindAlgorithm) : (scenarioMap alg).WellFormed :=
  (insertAll_invariant envU32U64 alg BASESIZE [(10, 1), (20, 2), (5, 3), (15, 4)]).1

theorem scenarioMap_keys (alg : FindAlgorithm) : (scenarioMap alg).keys = [5, 10, 15, 20] := by
  cases alg <;> decide

/-! ## Claims -/

/-- C1: any sequence of `insert(key, value)` calls applied in order to a freshly
constructed map (of any initial size, with either search algorithm) ends in the reference
sorted map: `count()` is the number of distinct keys inserted, the keys of the entries
at `[0, count)` are those keys in strictly ascending order, every entry carries the
value of the last insertion of its key, and `firstKey()`/`lastKey()` are the smallest
and the largest key inserted. -/
theorem insertAll_eq_reference_map (env : Env V) (alg : FindAlgorithm) (size : Int)
    (kvs : List (Nat × V)) :
    (insertAll env alg (construct env size) kvs).count
      = ((kvs.map Prod.fst).toFinset.card : Int) ∧
    (insertAll env alg (construct env size) kvs).keys
      = (kvs.map Prod.fst).toFinset.sort (· ≤ ·) ∧
    (insertAll env alg (construct env size) kvs).keys.Sorted (· < ·) ∧
    (∀ e ∈ (insertAll env alg (construct env size) kvs).entries,
      lastInserted kvs e.key = some e.value) ∧
    (kvs ≠ [] →
      (insertAll env alg (construct env size) kvs).firstKey ∈ kvs.map Prod.fst ∧
      (insertAll env alg (construct env size) kvs).lastKey ∈ kvs.map Prod.fst ∧
      ∀ k ∈ kvs.map Prod.fst,
        (insertAll env alg (construct env size) kvs).firstKey ≤ k ∧
        k ≤ (insertAll env alg (construct env size) kvs).lastKey) := by
  obtain ⟨hw, _, hk, hv⟩ := insertAll_invariant env alg size kvs
  generalize insertAll env alg (construct env size) kvs = m at hw hk hv
  have hkeys := keys_eq_sort m hw.sorted (kvs.map Prod.fst) hk
  refine ⟨?_, hkeys, keys_sorted m hw.sorted, ?_, ?_⟩
  · unfold count
    rw [← length_keys m hw.count_nonneg, hkeys, Finset.length_sort]
  · intro e he
    obtain ⟨i, h0, h1, rfl⟩ := (mem_entries m e).mp he
    exact hv i h0 h1
  · intro hne
    obtain ⟨kv, hkv⟩ := List.exists_mem_of_ne_nil kvs hne
    obtain ⟨i, i0, i1, _⟩ := (hk kv.1).mpr (List.mem_map_of_mem Prod.fst hkv)
    have hpos : 0 < m.count_ := by omega
    obtain ⟨hf, hl⟩ := hw.cache hpos
    unfold firstKey lastKey
    refine ⟨?_, ?_, ?_⟩
    · rw [hf]; exact (hk _).mp ⟨0, le_refl 0, hpos, rfl⟩
    · rw [hl]; exact (hk _).mp ⟨m.count_ - 1, by omega, by omega, rfl⟩
    · intro k hmem
      obtain ⟨j, j0, j1, rfl⟩ := (hk k).mpr hmem
      rw [hf, hl]
      exact ⟨hw.sorted.le_of_le (le_refl 0) j0 j1,
        hw.sorted.le_of_le j0 (by omega) (by omega)⟩

/-- Witness of C1: inserting 10, 20, 5, 15 gives the keys `[5, 10, 15, 20]`, the sorted
list of the distinct keys inserted. -/
theorem insertAll_eq_reference_map_witness :
    (scenarioMap FindAlgorithm.BinarySeparation).keys = [5, 10, 15, 20] ∧
    (scenarioMap FindAlgorithm.BinarySeparation).keys
      = (([(10, 1), (20, 2), (5, 3), (15, 4)] : List (Nat × Nat)).map Prod.fst).toFinset.sort
          (· ≤ ·) :=
  ⟨by decide,
   (insertAll_eq_reference_map envU32U64 FindAlgorithm.BinarySeparation BASESIZE
      [(10, 1), (20, 2), (5, 3), (15, 4)]).2.1⟩


theorem scenarioView_wellFormed : scenarioView.WellFormed := by
  have hc : scenarioView.count_ = 4 := by decide
  refine ⟨by rw [hc]; decide, ?_, ?_⟩
  · intro i h0 h1
    rw [hc] at h1
    have : i = 0 ∨ i = 1 ∨ i = 2 := by omega
    rcases this with h | h | h <;> subst h <;> decide
  · intro _
    constructor <;> decide

/-- C2, as the code has it: on a well-formed map that has a block of its own
(`dataSize_` is not zero), `insert(key, v)` of a key that is present leaves `count()`
and the key sequence unchanged, leaves every entry with another key as it was, and makes
the entry of `key` carry `v`. -/
theorem insert_existing_key (env : Env V) (alg : FindAlgorithm) (m : OrderedKeyMap V)
    (key : Nat) (v : V) (hw : m.WellFormed) (hd : m.dataSize_ ≠ 0) (hk : m.HasKey key) :
    (insert env alg m key v).1.count = m.count ∧
    (insert env alg m key v).1.keys = m.keys ∧
    (∀ i, 0 ≤ i → i < m.count → m.keyAt i ≠ key →
      (insert env alg m key v).1.dataAt i = m.dataAt i) ∧
    (∀ i, 0 ≤ i → i < m.count → m.keyAt i = key →
      (insert env alg m key v).1.dataAt i = { key := key, value := v }) := by
  obtain ⟨p, p0, p1, p2⟩ := hk
  rw [insert_hit env alg m key v hw hd p0 p1 p2]
  have hkeys : ∀ i, (({ m with data_ := writeValue m.data_ p v } : OrderedKeyMap V).dataAt i).key
      = (m.dataAt i).key := by
    intro i
    simp only [dataAt, writeValue]
    split_ifs <;> rfl
  refine ⟨rfl, ?_, ?_, ?_⟩
  · unfold keys entries
    simp only [List.map_map]
    apply List.map_congr_left
    intro a _
    exact hkeys a
  · intro i h0 h1 hne
    have hip : i ≠ p := fun h => hne (by rw [h]; exact p2)
    simp only [dataAt, writeValue, if_neg hip]
  · intro i h0 h1 he
    have hip : i = p := hw.sorted.inj h0 h1 p0 p1 (by rw [he, p2])
    subst hip
    simp only [dataAt, writeValue, if_true]
    have : (m.data_ i).key = key := p2
    rw [this]

/-- Witness of C2 as amended: `insert(15, 9)` on the map of the scenario keeps the keys
`[5, 10, 15, 20]`. -/
theorem insert_existing_key_witness :
    (scenarioMap FindAlgorithm.BinarySeparation).dataSize_ ≠ 0 ∧
    (scenarioMap FindAlgorithm.BinarySeparation).HasKey 15 ∧
    (insert envU32U64 FindAlgorithm.BinarySeparation
      (scenarioMap FindAlgorithm.BinarySeparation) 15 9).1.keys
      = (scenarioMap FindAlgorithm.BinarySeparation).keys :=
  ⟨by decide, ⟨2, by decide, by decide, by decide⟩,
   (insert_existing_key envU32U64 FindAlgorithm.BinarySeparation
      (scenarioMap FindAlgorithm.BinarySeparation) 15 9 (scenarioMap_wellFormed _)
      (by decide) ⟨2, by decide, by decide, by decide⟩).2.1⟩

/-- Counterexample to C2 as stated: the view `fromRawData(m.data(), m.dataSize())` of the
map of the scenario is well-formed and holds key 15, and `insert(15, 9)` on it allocates a
block (`dataSize_` is zero), after which `count()` is 5 and the keys are read from the new
block. -/
theorem insert_existing_key_on_view :
    scenarioView.WellFormed ∧ scenarioView.HasKey 15 ∧ scenarioView.count = 4 ∧
    scenarioView.keys = [5, 10, 15, 20] ∧
    (insert envU32U64 FindAlgorithm.BinarySeparation scenarioView 15 9).1.count = 5 ∧
    (insert envU32U64 FindAlgorithm.BinarySeparation scenarioView 15 9).1.keys
      = [0, 0, 0, 15, 0] :=
  ⟨scenarioView_wellFormed, ⟨2, by decide, by decide, by decide⟩, by decide, by decide,
   by decide, by decide⟩

/-- C3: on a well-formed map, with either search algorithm, `lowerBound(K)` is at the
least index of `[0, count)` whose key is at least `K`, and at the end position `count`
when there is no such index. -/
theorem lowerBound_least_index (env : Env V) (alg : FindAlgorithm) (m : OrderedKeyMap V)
    (key : Nat) (hw : m.WellFormed) :
    ((m.indicesGE key).Nonempty → IsLeast (m.indicesGE key) (lowerBound env alg m key)) ∧
    (¬ (m.indicesGE key).Nonempty → lowerBound env alg m key = m.count) := by
  obtain ⟨p0, p1, p2, p3⟩ := lowerBound_spec env alg m key hw
  generalize lowerBound env alg m key = p at p0 p1 p2 p3
  have hlow : ∀ j ∈ m.indicesGE key, p ≤ j := by
    rintro j ⟨j0, j1, j2⟩
    by_contra hcon
    have := p2 j j0 (by omega)
    omega
  constructor
  · rintro ⟨i, hi⟩
    have hpi := hlow i hi
    obtain ⟨i0, i1, i2⟩ := hi
    exact ⟨⟨p0, by omega, p3 p (le_refl p) (by omega)⟩, hlow⟩
  · intro hne
    by_contra hcon
    have hlt : p < m.count_ := by
      unfold count at hcon; omega
    exact hne ⟨p, p0, hlt, p3 p (le_refl p) hlt⟩

/-- Witness of C3: on the keys `[5, 10, 15, 20]`, `lowerBound(12)` is position 2, the
position of key 15. -/
theorem lowerBound_least_index_witness :
    lowerBound envU32U64 FindAlgorithm.RelativePrediction
      (scenarioMap FindAlgorithm.RelativePrediction) 12 = 2 ∧
    (scenarioMap FindAlgorithm.RelativePrediction).keyAt 2 = 15 ∧
    IsLeast ((scenarioMap FindAlgorithm.RelativePrediction).indicesGE 12)
      (lowerBound envU32U64 FindAlgorithm.RelativePrediction
        (scenarioMap FindAlgorithm.RelativePrediction) 12) :=
  ⟨by decide, by decide,
   (lowerBound_least_index envU32U64 FindAlgorithm.RelativePrediction
      (scenarioMap FindAlgorithm.RelativePrediction) 12 (scenarioMap_wellFormed _)).1
      ⟨2, by decide, by decide, by decide⟩⟩

/-- C4: on a well-formed map, `upperBound(K)` is at the least index of `[0, count)` whose
key is greater than `K`, and at the end position `count` when there is no such index;
the entry at the returned position, if any, does not have key `K`. -/
theorem upperBound_least_index (env : Env V) (alg : FindAlgorithm) (m : OrderedKeyMap V)
    (key : Nat) (hw : m.WellFormed) :
    ((m.indicesGT key).Nonempty → IsLeast (m.indicesGT key) (upperBound env alg m key)) ∧
    (¬ (m.indicesGT key).Nonempty → upperBound env alg m key = m.count) ∧
    (0 ≤ upperBound env alg m key → upperBound env alg m key < m.count →
      m.keyAt (upperBound env alg m key) ≠ key) := by
  obtain ⟨p0, p1, p2, p3⟩ := upperBound_spec env alg m key hw
  generalize upperBound env alg m key = p at p0 p1 p2 p3
  have hlow : ∀ j ∈ m.indicesGT key, p ≤ j := by
    rintro j ⟨j0, j1, j2⟩
    by_contra hcon
    have := p2 j j0 (by omega)
    omega
  refine ⟨?_, ?_, ?_⟩
  · rintro ⟨i, hi⟩
    have hpi := hlow i hi
    obtain ⟨i0, i1, i2⟩ := hi
    exact ⟨⟨p0, by omega, p3 p (le_refl p) (by omega)⟩, hlow⟩
  · intro hne
    by_contra hcon
    have hlt : p < m.count_ := by
      unfold count at hcon; omega
    exact hne ⟨p, p0, hlt, p3 p (le_refl p) hlt⟩
  · intro _ hlt
    have := p3 p (le_refl p) hlt
    omega

/-- Witness of C4: on the keys `[5, 10, 15, 20]`, `upperBound(15)` is position 3, the
position of key 20. -/
theorem upperBound_least_index_witness :
    upperBound envU32U64 FindAlgorithm.BinarySeparation
      (scenarioMap FindAlgorithm.BinarySeparation) 15 = 3 ∧
    (scenarioMap FindAlgorithm.BinarySeparation).keyAt 3 = 20 ∧
    IsLeast ((scenarioMap FindAlgorithm.BinarySeparation).indicesGT 15)
      (upperBound envU32U64 FindAlgorithm.BinarySeparation
        (scenarioMap FindAlgorithm.BinarySeparation) 15) :=
  ⟨by decide, by decide,
   (upperBound_least_index envU32U64 FindAlgorithm.BinarySeparation
      (scenarioMap FindAlgorithm.BinarySeparation) 15 (scenarioMap_wellFormed _)).1
      ⟨3, by decide, by decide, by decide⟩⟩

/-- C5: on a well-formed map, if the entry at index `i` has key `K` then `find(K)` is at
position `i` and `contains(K)` is true; if no entry has key `K` then `find(K)` is `end()`
and `contains(K)` is false. -/
theorem find_contains (env : Env V) (alg : FindAlgorithm) (m : OrderedKeyMap V)
    (key : Nat) (hw : m.WellFormed) :
    (∀ i, 0 ≤ i → i < m.count → m.keyAt i = key →
      find env alg m key = i ∧ contains env alg m key = true) ∧
    (¬ m.HasKey key → find env alg m key = m.constEnd ∧ contains env alg m key = false) := by
  obtain ⟨h1, h2⟩ := find_spec env alg m key hw
  constructor
  · intro i i0 i1 ik
    have hf := h1 i i0 i1 ik
    refine ⟨hf, ?_⟩
    unfold contains
    rw [hf]
    unfold count at i1
    simp only [constEnd, decide_eq_true_eq]
    omega
  · intro hno
    have hf := h2 (fun i i0 i1 ik => hno ⟨i, i0, i1, ik⟩)
    refine ⟨hf, ?_⟩
    unfold contains
    rw [hf]
    simp

/-- Witness of C5: on the keys `[5, 10, 15, 20]`, `find(15)` is position 2, where key 15
is, and `find(99)` is `end()`. -/
theorem find_contains_witness :
    (scenarioMap FindAlgorithm.BinarySeparation).keyAt 2 = 15 ∧
    (find envU32U64 FindAlgorithm.BinarySeparation
        (scenarioMap FindAlgorithm.BinarySeparation) 15 = 2 ∧
      contains envU32U64 FindAlgorithm.BinarySeparation
        (scenarioMap FindAlgorithm.BinarySeparation) 15 = true) ∧
    (find envU32U64 FindAlgorithm.BinarySeparation
        (scenarioMap FindAlgorithm.BinarySeparation) 99
        = (scenarioMap FindAlgorithm.BinarySeparation).constEnd ∧
      contains envU32U64 FindAlgorithm.BinarySeparation
        (scenarioMap FindAlgorithm.BinarySeparation) 99 = false) :=
  ⟨by decide,
   (find_contains envU32U64 FindAlgorithm.BinarySeparation
      (scenarioMap FindAlgorithm.BinarySeparation) 15 (scenarioMap_wellFormed _)).1 2
      (by decide) (by decide) (by decide),
   (find_contains envU32U64 FindAlgorithm.BinarySeparation
      (scenarioMap FindAlgorithm.BinarySeparation) 99 (scenarioMap_wellFormed _)).2
      (by rintro ⟨i, i0, i1, ik⟩
          have hc : (scenarioMap FindAlgorithm.BinarySeparation).count_ = 4 := by decide
          rw [hc] at i1
          have : i = 0 ∨ i = 1 ∨ i = 2 ∨ i = 3 := by omega
          rcases this with h | h | h | h <;> subst h <;> revert ik <;> decide)⟩


theorem entries_eq {m1 m2 : OrderedKeyMap V} (h1 : 0 ≤ m1.count_) (h2 : 0 ≤ m2.count_)
    (h : m1.entries = m2.entries) :
    m1.count_ = m2.count_ ∧ ∀ i, 0 ≤ i → i < m1.count_ → m1.dataAt i = m2.dataAt i := by
  have hlen := congrArg List.length h
  simp only [entries, List.length_map, List.length_range] at hlen
  have hc : m1.count_ = m2.count_ := by omega
  refine ⟨hc, ?_⟩
  intro i i0 i1
  have hg := congrArg (fun l => l[i.toNat]?) h
  simp only [entries, List.getElem?_map] at hg
  rw [List.getElem?_range (by omega), List.getElem?_range (by omega)] at hg
  simp only [Option.map_some', Option.some.injEq] at hg
  rw [Int.toNat_of_nonneg i0] at hg
  exact hg

theorem IsLowerBound.congr {m1 m2 : OrderedKeyMap V} {key : Nat} {p : Int}
    (hc : m1.count_ = m2.count_)
    (hd : ∀ i, 0 ≤ i → i < m1.count_ → m1.dataAt i = m2.dataAt i)
    (hp : m1.IsLowerBound key p) : m2.IsLowerBound key p := by
  obtain ⟨p0, p1, p2, p3⟩ := hp
  refine ⟨p0, by omega, ?_, ?_⟩
  · intro i i0 i1
    have := p2 i i0 i1
    unfold keyAt at this ⊢
    rw [← hd i i0 (by omega)]
    exact this
  · intro i i0 i1
    have := p3 i i0 (by omega)
    unfold keyAt at this ⊢
    rw [← hd i (by omega) (by omega)]
    exact this

theorem itKey_congr {m1 m2 : OrderedKeyMap V} (hc : m1.count_ = m2.count_)
    (hd : ∀ i, 0 ≤ i → i < m1.count_ → m1.dataAt i = m2.dataAt i) (p : Int) :
    m1.itKey p = m2.itKey p := by
  unfold itKey
  rw [← hc]
  by_cases h : p ≥ m1.count_ ∨ p < 0
  · rw [if_pos h, if_pos h]
  · rw [if_neg h, if_neg h, hd p (by omega) (by omega)]

/-- C6: over the same well-formed entry sequence, the map instantiated with
`FindAlgorithm::BinarySeparation` and the map instantiated with
`FindAlgorithm::RelativePrediction` return the same position from `lowerBound`, from
`upperBound` and from `find`, whatever the interpolation expression evaluates to. -/
theorem search_algorithms_agree (env1 env2 : Env V) (m1 m2 : OrderedKeyMap V) (key : Nat)
    (hw1 : m1.WellFormed) (hw2 : m2.WellFormed) (he : m1.entries = m2.entries) :
    lowerBound env1 FindAlgorithm.BinarySeparation m1 key
      = lowerBound env2 FindAlgorithm.RelativePrediction m2 key ∧
    upperBound env1 FindAlgorithm.BinarySeparation m1 key
      = upperBound env2 FindAlgorithm.RelativePrediction m2 key ∧
    find env1 FindAlgorithm.BinarySeparation m1 key
      = find env2 FindAlgorithm.RelativePrediction m2 key := by
  obtain ⟨hc, hd⟩ := entries_eq hw1.count_nonneg hw2.count_nonneg he
  have hl : lowerBound env1 FindAlgorithm.BinarySeparation m1 key
      = lowerBound env2 FindAlgorithm.RelativePrediction m2 key :=
    ((lowerBound_spec env1 _ m1 key hw1).congr hc hd).unique (lowerBound_spec env2 _ m2 key hw2)
  refine ⟨hl, ?_, ?_⟩
  · unfold upperBound
    simp only [hl, constEnd, hc, itKey_congr hc hd]
  · unfold find
    simp only [hl, constEnd, hc, itKey_congr hc hd]

/-- Witness of C6: the two instantiations of the map of the scenario hold the same
entries and agree on `lowerBound(12)`, `upperBound(12)` and `find(12)`. -/
theorem search_algorithms_agree_witness :
    (scenarioMap FindAlgorithm.BinarySeparation).entries
      = (scenarioMap FindAlgorithm.RelativePrediction).entries ∧
    lowerBound envU32U64 FindAlgorithm.BinarySeparation
        (scenarioMap FindAlgorithm.BinarySeparation) 12
      = lowerBound envU32U64 FindAlgorithm.RelativePrediction
        (scenarioMap FindAlgorithm.RelativePrediction) 12 ∧
    upperBound envU32U64 FindAlgorithm.BinarySeparation
        (scenarioMap FindAlgorithm.BinarySeparation) 12
      = upperBound envU32U64 FindAlgorithm.RelativePrediction
        (scenarioMap FindAlgorithm.RelativePrediction) 12 ∧
    find envU32U64 FindAlgorithm.BinarySeparation
        (scenarioMap FindAlgorithm.BinarySeparation) 12
      = find envU32U64 FindAlgorithm.RelativePrediction
        (scenarioMap FindAlgorithm.RelativePrediction) 12 :=
  ⟨by decide,
   search_algorithms_agree envU32U64 envU32U64 (scenarioMap FindAlgorithm.BinarySeparation)
     (scenarioMap FindAlgorithm.RelativePrediction) 12 (scenarioMap_wellFormed _)
     (scenarioMap_wellFormed _) (by decide)⟩

/-- C7 fails on the code: after the insertions of the scenario, `remove(15)` and
`insert(17, 9)` leave the keys `[5, 15, 17, 15]`, which are not ascending. -/
theorem remove_breaks_sortedness :
    (runOps envU32U64 FindAlgorithm.BinarySeparation (construct envU32U64 BASESIZE)
      scenarioRemoveInsertOps).keys = [5, 15, 17, 15] ∧
    ¬ (runOps envU32U64 FindAlgorithm.BinarySeparation (construct envU32U64 BASESIZE)
      scenarioRemoveInsertOps).Sorted :=
  ⟨by decide, fun h => absurd (h 2 (by decide) (by decide)) (by decide)⟩

/-- C8 fails on the code: after the insertions of the scenario and `remove(15)` the map
has three entries, the last of which has key 15, and `lastKey()` is still 20. -/
theorem remove_breaks_boundary_cache :
    (runOps envU32U64 FindAlgorithm.BinarySeparation (construct envU32U64 BASESIZE)
      scenarioRemoveOps).count = 3 ∧
    (runOps envU32U64 FindAlgorithm.BinarySeparation (construct envU32U64 BASESIZE)
      scenarioRemoveOps).keyAt 2 = 15 ∧
    (runOps envU32U64 FindAlgorithm.BinarySeparation (construct envU32U64 BASESIZE)
      scenarioRemoveOps).lastKey = 20 ∧
    ¬ (runOps envU32U64 FindAlgorithm.BinarySeparation (construct envU32U64 BASESIZE)
      scenarioRemoveOps).CacheOk :=
  ⟨by decide, by decide, by decide,
   fun h => absurd (h (by decide)).2 (by decide)⟩

/-- C9 fails on the code: on the map of the scenario, with keys `[5, 10, 15, 20]`,
`remove(10)` leaves the keys `[10, 10, 15]` with `firstKey()` 5 and `lastKey()` 20, and
`contains(10)` is still true. -/
theorem remove_middle_key_scenario :
    (scenarioMap FindAlgorithm.BinarySeparation).WellFormed ∧
    (scenarioMap FindAlgorithm.BinarySeparation).keys = [5, 10, 15, 20] ∧
    (remove envU32U64 FindAlgorithm.BinarySeparation
      (scenarioMap FindAlgorithm.BinarySeparation) 10).count = 3 ∧
    (remove envU32U64 FindAlgorithm.BinarySeparation
      (scenarioMap FindAlgorithm.BinarySeparation) 10).keys = [10, 10, 15] ∧
    (remove envU32U64 FindAlgorithm.BinarySeparation
      (scenarioMap FindAlgorithm.BinarySeparation) 10).firstKey = 5 ∧
    (remove envU32U64 FindAlgorithm.BinarySeparation
      (scenarioMap FindAlgorithm.BinarySeparation) 10).lastKey = 20 ∧
    contains envU32U64 FindAlgorithm.BinarySeparation
      (remove envU32U64 FindAlgorithm.BinarySeparation
        (scenarioMap FindAlgorithm.BinarySeparation) 10) 10 = true :=
  ⟨scenarioMap_wellFormed _, by decide, by decide, by decide, by decide, by decide,
   by decide⟩

/-- C10: on a map that is not empty, `remove(lastKey())` pops the last entry: `count()`
decreases by one, the block is untouched so that the entries are the former ones without
the last, and afterwards `lastKey()` is the key of the new last entry (with `firstKey()`
unchanged) if the map is still not empty, while `firstKey()` and `lastKey()` are both 0 if
it became empty. -/
theorem remove_lastKey (env : Env V) (alg : FindAlgorithm) (m : OrderedKeyMap V)
    (hpos : 0 < m.count) :
    (remove env alg m m.lastKey).count = m.count - 1 ∧
    (∀ i, (remove env alg m m.lastKey).dataAt i = m.dataAt i) ∧
    (remove env alg m m.lastKey).entries = m.entries.dropLast ∧
    ((remove env alg m m.lastKey).count ≠ 0 →
      (remove env alg m m.lastKey).lastKey
        = (remove env alg m m.lastKey).keyAt ((remove env alg m m.lastKey).count - 1) ∧
      (remove env alg m m.lastKey).firstKey = m.firstKey) ∧
    ((remove env alg m m.lastKey).count = 0 →
      (remove env alg m m.lastKey).firstKey = 0 ∧ (remove env alg m m.lastKey).lastKey = 0) := by
  unfold count at hpos
  have hc : (remove env alg m m.lastKey).count_ = m.count_ - 1 := by
    unfold remove lastKey
    simp only [if_true]
    split_ifs <;> rfl
  have hd : ∀ i, (remove env alg m m.lastKey).dataAt i = m.dataAt i := by
    intro i
    unfold remove lastKey dataAt
    simp only [if_true]
    split_ifs <;> rfl
  refine ⟨hc, hd, ?_, ?_, ?_⟩
  · unfold entries
    rw [hc, ← List.map_dropLast, List.dropLast_eq_take, List.take_range, List.length_range]
    have e : min (m.count_.toNat - 1) m.count_.toNat = (m.count_ - 1).toNat := by omega
    rw [e]
    apply List.map_congr_left
    intro a _
    exact hd a
  · intro hne
    unfold count at hne
    rw [hc] at hne
    unfold remove lastKey firstKey keyAt count dataAt
    simp only [if_true]
    rw [if_pos hne]
    exact ⟨rfl, rfl⟩
  · intro he
    unfold count at he
    rw [hc] at he
    unfold remove lastKey firstKey
    simp only [if_true]
    rw [if_neg (by simpa using he)]
    exact ⟨rfl, rfl⟩

/-- Witness of C10: `remove(20)` on the map of the scenario leaves the keys
`[5, 10, 15]` and `lastKey()` 15. -/
theorem remove_lastKey_witness :
    0 < (scenarioMap FindAlgorithm.BinarySeparation).count ∧
    (scenarioMap FindAlgorithm.BinarySeparation).lastKey = 20 ∧
    (remove envU32U64 FindAlgorithm.BinarySeparation
      (scenarioMap FindAlgorithm.BinarySeparation) 20).keys = [5, 10, 15] ∧
    (remove envU32U64 FindAlgorithm.BinarySeparation
      (scenarioMap FindAlgorithm.BinarySeparation)
      (scenarioMap FindAlgorithm.BinarySeparation).lastKey).count
      = (scenarioMap FindAlgorithm.BinarySeparation).count - 1 :=
  ⟨by decide, by decide, by decide,
   (remove_lastKey envU32U64 FindAlgorithm.BinarySeparation
      (scenarioMap FindAlgorithm.BinarySeparation) (by decide)).1⟩


/-! ## Removal of a key that is absent, truncation, locality search -/

theorem scenarioMap_hasKey_iff (alg : FindAlgorithm) (k : Nat) :
    (scenarioMap alg).HasKey k ↔ k = 5 ∨ k = 10 ∨ k = 15 ∨ k = 20 := by
  rw [← mem_keys, scenarioMap_keys]
  simp

/-- C11 fails on the code: key 12 is not in the map of the scenario, and `remove(12)`
leaves three entries with the keys `[5, 15, 15]`; key 0 is not in a freshly constructed
map, and `remove(0)` leaves it with `count()` equal to -1. -/
theorem remove_absent_key_scenario :
    ¬ (scenarioMap FindAlgorithm.BinarySeparation).HasKey 12 ∧
    (remove envU32U64 FindAlgorithm.BinarySeparation
      (scenarioMap FindAlgorithm.BinarySeparation) 12).count = 3 ∧
    (remove envU32U64 FindAlgorithm.BinarySeparation
      (scenarioMap FindAlgorithm.BinarySeparation) 12).keys = [5, 15, 15] ∧
    (construct envU32U64 BASESIZE).count = 0 ∧
    (remove envU32U64 FindAlgorithm.BinarySeparation (construct envU32U64 BASESIZE) 0).count
      = -1 :=
  ⟨by rw [scenarioMap_hasKey_iff]; decide, by decide, by decide, by decide, by decide⟩

/-- C12 fails on the code: on the map of the scenario `lowerBound(25)` is `end()`, and
`trimAfter(25)` makes `count()` 5, one more than before, with `lastKey()` read from the
block behind the last entry. -/
theorem trimAfter_beyond_lastKey :
    (scenarioMap FindAlgorithm.BinarySeparation).count = 4 ∧
    lowerBound envU32U64 FindAlgorithm.BinarySeparation
      (scenarioMap FindAlgorithm.BinarySeparation) 25
      = (scenarioMap FindAlgorithm.BinarySeparation).constEnd ∧
    (trimAfter envU32U64 FindAlgorithm.BinarySeparation
      (scenarioMap FindAlgorithm.BinarySeparation) 25).count = 5 ∧
    (trimAfter envU32U64 FindAlgorithm.BinarySeparation
      (scenarioMap FindAlgorithm.BinarySeparation) 25).keys = [5, 10, 15, 20, 0] ∧
    (trimAfter envU32U64 FindAlgorithm.BinarySeparation
      (scenarioMap FindAlgorithm.BinarySeparation) 25).lastKey = 0 :=
  ⟨by decide, by decide, by decide, by decide, by decide⟩

theorem valueNearLoop_of_hint_ne (m : OrderedKeyMap V) (key : Nat) (data : Pair V) (p : Int)
    (hne : data.key ≠ key) (hp : p = 1 ∨ p = -1) :
    ∀ (fuel : Nat) (pos2 : Int), 0 ≤ pos2 → pos2 < m.count_ →
      (p = 1 → m.count_ - pos2 ≤ fuel) → (p = -1 → pos2 + 1 ≤ fuel) →
      valueNearLoop m key data p fuel pos2 = some ValueRef.emptyVal := by
  intro fuel
  induction fuel with
  | zero =>
    intro pos2 h0 h1 ha hb
    exfalso
    rcases hp with h | h
    · have := ha h; simp at this; omega
    · have := hb h; simp at this; omega
  | succ fuel ih =>
    intro pos2 h0 h1 ha hb
    rw [valueNearLoop]
    simp only [if_neg hne]
    split_ifs with hbr hin
    · rfl
    · apply ih (pos2 + p) hin.1 hin.2
      · intro h; have := ha h; push_cast at this; omega
      · intro h; have := hb h; push_cast at this; omega
    · rfl

/-- C19 fails on the code: whenever the entry at the hint position does not hold `key`,
`valueNearPos(key, hintPos)` returns a reference to `emptyVal`, also when another entry
holds `key` (the loop tests the key of the hint entry again, not that of the entry it
walked to). -/
theorem valueNearPos_of_hint_ne (m : OrderedKeyMap V) (key : Nat) (pos : Int)
    (h0 : 0 ≤ pos) (h1 : pos < m.count) (hne : m.keyAt pos ≠ key) :
    valueNearPos m key pos = some ValueRef.emptyVal := by
  unfold count at h1
  have hne2 : (m.dataAt pos).key ≠ key := hne
  unfold valueNearPos
  rw [if_pos ⟨h1, h0⟩]
  simp only
  rw [if_neg hne2]
  apply valueNearLoop_of_hint_ne m key _ _ hne2
  · split_ifs <;> simp
  · exact h0
  · exact h1
  · intro _; push_cast; omega
  · intro _; push_cast; omega

/-- The failing input of C19: on the map of the scenario key 15 is stored at index 2 with
value 4, and `valueNearPos(15, 1)` returns `emptyVal`, which is 0. -/
theorem valueNearPos_of_hint_ne_witness :
    (0 : Int) ≤ 1 ∧ 1 < (scenarioMap FindAlgorithm.BinarySeparation).count ∧
    (scenarioMap FindAlgorithm.BinarySeparation).keyAt 1 ≠ 15 ∧
    (scenarioMap FindAlgorithm.BinarySeparation).dataAt 2 = { key := 15, value := 4 } ∧
    valueNearPos (scenarioMap FindAlgorithm.BinarySeparation) 15 1
      = some ValueRef.emptyVal ∧
    (scenarioMap FindAlgorithm.BinarySeparation).deref ValueRef.emptyVal = 0 :=
  ⟨by decide, by decide, by decide, by decide,
   valueNearPos_of_hint_ne (scenarioMap FindAlgorithm.BinarySeparation) 15 1 (by decide)
     (by decide) (by decide),
   by decide⟩


/-! ## The mutable `operator []` -/

theorem contains_of_hasKey (env : Env V) (alg : FindAlgorithm) (m : OrderedKeyMap V)
    (key : Nat) (hw : m.WellFormed) (hk : m.HasKey key) : contains env alg m key = true := by
  obtain ⟨i, i0, i1, ik⟩ := hk
  have hf := (find_spec env alg m key hw).1 i i0 i1 ik
  unfold contains
  rw [hf]
  simp only [constEnd, decide_eq_true_eq]
  omega

theorem insert_miss_general (env : Env V) (alg : FindAlgorithm) (m : OrderedKeyMap V)
    (key : Nat) (v : V) (hw : m.WellFormed)
    (hcap : HasCapacity env m ∨ (m.dataSize_ = 0 ∧ m.count_ = 0)) (hno : ¬ m.HasKey key) :
    ∃ p, m.IsLowerBound key p ∧
      InsertedAt m (insert env alg m key v).1 p { key := key, value := v } ∧
      (insert env alg m key v).1.firstKey_ = (if p = 0 then key else m.firstKey_) ∧
      (insert env alg m key v).1.lastKey_ = (if p = m.count_ then key else m.lastKey_) ∧
      (insert env alg m key v).2 = p := by
  have hS := env.sizeofPair_pos
  rcases hcap with hcap | ⟨hd, hz⟩
  · obtain ⟨p, a, b, c, d, _, e⟩ := insert_miss env alg m key v hw hcap hno
    exact ⟨p, a, b, c, d, e⟩
  · rw [insert_of_dataSize_zero env alg m key v hd]
    have hpos : BASESIZE * env.sizeofPair > 0 := by unfold BASESIZE; omega
    have hr : reserveData env m (BASESIZE * env.sizeofPair)
        = { m with data_ := env.fresh, dataSize_ := BASESIZE * env.sizeofPair } := by
      unfold reserveData; rw [if_pos hpos]
    have hcount : (reserveData env m (BASESIZE * env.sizeofPair)).count_ = 0 := by
      rw [hr]; exact hz
    have hwr : (reserveData env m (BASESIZE * env.sizeofPair)).WellFormed :=
      ⟨by omega, fun i a b => by omega, fun h => by omega⟩
    have hcr : HasCapacity env (reserveData env m (BASESIZE * env.sizeofPair)) := by
      unfold HasCapacity
      rw [hcount, hr]
      simp only []
      unfold BASESIZE
      constructor <;> omega
    have hnr : ¬ (reserveData env m (BASESIZE * env.sizeofPair)).HasKey key := by
      rintro ⟨i, h0, h1, _⟩; omega
    obtain ⟨p, ⟨p0, p1, _, _⟩, ⟨i1, _, i3, _⟩, c, d, _, e⟩ :=
      insert_miss env alg _ key v hwr hcr hnr
    have hp : p = 0 := by omega
    subst hp
    refine ⟨0, ⟨le_refl 0, by omega, fun i a b => by omega, fun i a b => by omega⟩,
      ⟨by rw [i1, hcount, hz], fun i a b => by omega, i3, fun i a b => by omega⟩, ?_, ?_, e⟩
    · rw [c]; simp
    · rw [d, hcount]; simp [hz]

/-- C13, as the code has it: on a well-formed map whose block has room for its entries
(or which has neither block nor entries), and with a key above `lastKey()` if the map is
empty, `map[key]` gives a well-formed map that contains `key`; if `key` was present the
map is unchanged and the reference is to the value of its entry; if `key` was absent the
reference is to a new entry `(key, TYPE())` inserted at its place, with `count()` one
more and all previous entries preserved. -/
theorem index_get_or_insert (env : Env V) (alg : FindAlgorithm) (m : OrderedKeyMap V)
    (key : Nat) (hw : m.WellFormed)
    (hcap : HasCapacity env m ∨ (m.dataSize_ = 0 ∧ m.count_ = 0))
    (hempty : m.count = 0 → m.lastKey < key) :
    (index env alg m key).1.WellFormed ∧
    contains env alg (index env alg m key).1 key = true ∧
    (m.HasKey key → (index env alg m key).1 = m ∧
      ∃ i, 0 ≤ i ∧ i < m.count ∧ m.keyAt i = key ∧
        (index env alg m key).2 = ValueRef.entry i) ∧
    (¬ m.HasKey key → ∃ p, (index env alg m key).2 = ValueRef.entry p ∧
      InsertedAt m (index env alg m key).1 p { key := key, value := env.typeDefault }) := by
  unfold count lastKey at hempty
  have hlb := lowerBound_spec env alg m key hw
  have hn := hw.count_nonneg
  by_cases hk : m.HasKey key
  · -- the key is present: nothing is inserted
    have hres : (index env alg m key).1 = m ∧
        ∃ i, 0 ≤ i ∧ i < m.count ∧ m.keyAt i = key ∧
          (index env alg m key).2 = ValueRef.entry i := by
      obtain ⟨i, i0, i1, ik⟩ := hk
      obtain ⟨hf, hl⟩ := hw.cache (by omega)
      have hle := hw.sorted.le_of_le i0 (show i ≤ m.count_ - 1 by omega) (by omega)
      unfold index
      by_cases h1 : key = m.lastKey_
      · rw [if_pos h1]
        refine ⟨rfl, m.count_ - 1, by omega, by unfold count; omega, by omega, ?_⟩
        unfold last
        rw [if_pos (by omega)]
      · rw [if_neg h1, if_neg (by omega)]
        have hp : lowerBound env alg m key = i := by
          apply lowerBound_eq_of_isLowerBound env alg m key hw
          refine ⟨i0, le_of_lt i1, ?_, ?_⟩
          · intro j j0 j1
            have := hw.sorted.lt_of_lt j0 j1 i1
            omega
          · intro j j0 j1
            have := hw.sorted.le_of_le i0 j0 j1
            omega
        simp only [hp, itKey_of_lt m i0 i1]
        rw [if_neg (by simpa using ik)]
        exact ⟨rfl, i, i0, i1, ik, rfl⟩
    refine ⟨?_, ?_, fun _ => hres, fun h => absurd hk h⟩
    · rw [hres.1]; exact hw
    · rw [hres.1]; exact contains_of_hasKey env alg m key hw hk
  · -- the key is absent: a default-valued entry is inserted
    have hres : ∃ p, m.IsLowerBound key p ∧ (index env alg m key).2 = ValueRef.entry p ∧
        InsertedAt m (index env alg m key).1 p { key := key, value := env.typeDefault } ∧
        (index env alg m key).1.firstKey_ = (if p = 0 then key else m.firstKey_) ∧
        (index env alg m key).1.lastKey_ = (if p = m.count_ then key else m.lastKey_) := by
      have hne : key ≠ m.lastKey_ := by
        intro h
        by_cases hc : m.count_ = 0
        · have := hempty hc; omega
        · obtain ⟨_, hl⟩ := hw.cache (by omega)
          exact hk ⟨m.count_ - 1, by omega, by omega, by omega⟩
      unfold index
      rw [if_neg hne]
      by_cases h2 : key > m.lastKey_
      · rw [if_pos h2]
        obtain ⟨p, a, b, c, d, e⟩ :=
          insert_miss_general env alg m key env.typeDefault hw hcap hk
        exact ⟨p, a, by simp only [e], b, c, d⟩
      · rw [if_neg h2]
        have hc : m.count_ ≠ 0 := fun hc => by have := hempty hc; omega
        obtain ⟨_, hl⟩ := hw.cache (by omega)
        generalize lowerBound env alg m key = p at hlb
        obtain ⟨p0, p1, p2, p3⟩ := hlb
        have hplt : p < m.count_ := by
          by_contra hcon
          have : p = m.count_ := by omega
          subst this
          have := p2 (m.count_ - 1) (by omega) (by omega)
          omega
        have hkp : m.keyAt p ≠ key := fun h => hk ⟨p, p0, hplt, h⟩
        simp only [itKey_of_lt m p0 hplt]
        rw [if_pos hkp]
        obtain ⟨f1, f2, _⟩ := insertBefore_fields env m p key env.typeDefault
        refine ⟨p, ⟨p0, p1, p2, p3⟩, rfl,
          insertBefore_insertedAt env m p key env.typeDefault p0 p1, f1, ?_⟩
        simp only [f2]
        rw [if_neg (by omega)]
    obtain ⟨p, hp, hr, hi, hf, hl⟩ := hres
    have hw2 := wellFormed_of_insertedAt hw hp hk hi hf hl
    refine ⟨hw2, ?_, fun h => absurd h hk, fun _ => ⟨p, hr, hi⟩⟩
    exact contains_of_hasKey env alg _ key hw2
      ((hasKey_of_insertedAt hp.1 hp.2.1 hi key).mpr (Or.inl rfl))

/-- Witness of C13 as amended: `map[12]` on the map of the scenario inserts `(12, 0)`
at index 2, and the map contains 12 afterwards. -/
theorem index_get_or_insert_witness :
    (index envU32U64 FindAlgorithm.BinarySeparation
      (scenarioMap FindAlgorithm.BinarySeparation) 12).1.keys = [5, 10, 12, 15, 20] ∧
    (index envU32U64 FindAlgorithm.BinarySeparation
      (scenarioMap FindAlgorithm.BinarySeparation) 12).2 = ValueRef.entry 2 ∧
    contains envU32U64 FindAlgorithm.BinarySeparation
      (index envU32U64 FindAlgorithm.BinarySeparation
        (scenarioMap FindAlgorithm.BinarySeparation) 12).1 12 = true :=
  ⟨by decide, by decide,
   (index_get_or_insert envU32U64 FindAlgorithm.BinarySeparation
      (scenarioMap FindAlgorithm.BinarySeparation) 12 (scenarioMap_wellFormed _)
      (Or.inl ⟨by decide, by decide⟩) (fun h => absurd h (by decide))).2.1⟩

/-- Counterexample to C13 as stated: on a freshly constructed (empty) map `map[0]`
returns a reference to `emptyVal` and inserts nothing, so the map does not contain 0;
on the view of the map of the scenario, which has no block of its own, `map[25]` gives
the keys `[0, 0, 0, 0, 25]`, so the previous entries are not preserved. -/
theorem index_on_empty_map_and_on_view :
    (construct envU32U64 BASESIZE).WellFormed ∧
    (index envU32U64 FindAlgorithm.BinarySeparation (construct envU32U64 BASESIZE) 0).2
      = ValueRef.emptyVal ∧
    (index envU32U64 FindAlgorithm.BinarySeparation (construct envU32U64 BASESIZE) 0).1.count
      = 0 ∧
    contains envU32U64 FindAlgorithm.BinarySeparation
      (index envU32U64 FindAlgorithm.BinarySeparation (construct envU32U64 BASESIZE) 0).1 0
      = false ∧
    scenarioView.WellFormed ∧ scenarioView.keys = [5, 10, 15, 20] ∧
    (index envU32U64 FindAlgorithm.BinarySeparation scenarioView 25).1.keys
      = [0, 0, 0, 0, 25] :=
  ⟨(construct_spec envU32U64 BASESIZE).1, by decide, by decide, by decide,
   scenarioView_wellFormed, by decide, by decide⟩


/-! ## Merging -/

theorem entries_eq_append {r a b : OrderedKeyMap V} (ha : 0 ≤ a.count_) (hb : 0 ≤ b.count_)
    (hc : r.count_ = a.count_ + b.count_)
    (h1 : ∀ i, 0 ≤ i → i < a.count_ → r.dataAt i = a.dataAt i)
    (h2 : ∀ j, 0 ≤ j → j < b.count_ → r.dataAt (a.count_ + j) = b.dataAt j) :
    r.entries = a.entries ++ b.entries := by
  unfold entries
  have e : r.count_.toNat = a.count_.toNat + b.count_.toNat := by omega
  rw [e, List.range_add, List.map_append, List.map_map]
  congr 1
  · apply List.map_congr_left
    intro i hi
    rw [List.mem_range] at hi
    exact h1 i (by omega) (by omega)
  · apply List.map_congr_left
    intro j hj
    rw [List.mem_range] at hj
    have := h2 j (by omega) (by omega)
    simp only [Function.comp_apply]
    rw [← this]
    congr 1
    push_cast
    omega

theorem realoc_spec (env : Env V) (m : OrderedKeyMap V) (addk : Int) (hadd : 0 < addk)
    (hn : 0 ≤ m.count_) (hcap : m.count_ * env.sizeofPair ≤ m.dataSize_) :
    (realoc env m addk).count_ = m.count_ ∧
    (realoc env m addk).firstKey_ = m.firstKey_ ∧
    (realoc env m addk).lastKey_ = m.lastKey_ ∧
    (realoc env m addk).emptyVal = m.emptyVal ∧
    (realoc env m addk).dataSize_ = m.dataSize_ + addk ∧
    (∀ i, 0 ≤ i → i < m.count_ → (realoc env m addk).dataAt i = m.dataAt i) := by
  have hS := env.sizeofPair_pos
  have hds : 0 ≤ m.dataSize_ := le_trans (Int.mul_nonneg hn (le_of_lt hS)) hcap
  have hpos : m.dataSize_ + addk > 0 := by omega
  unfold realoc reserveData
  simp only [if_pos hpos]
  refine ⟨(by first | rfl | trivial), (by first | rfl | trivial), (by first | rfl | trivial),
    (by first | rfl | trivial), (by first | rfl | trivial), ?_⟩
  intro i h0 h1
  unfold dataAt
  simp only [add_sub_cancel_right]
  exact copyBytes_front env _ _ _ m.count_ i hcap h0 h1

/-- C17, as the code has it: for maps `A` and `B` with counts that are not negative,
where the block of `A` holds the entries of `A` (`count*sizeof(Pair) <= dataSize_`):
if `A.lastKey() < B.firstKey()` then `A.insertAfterEnd(B)` returns true and the entries
of `A` afterwards are the former entries of `A` followed by those of `B`; otherwise it
returns false and `A` is unchanged. -/
theorem insertAfterEnd_spec (env : Env V) (a b : OrderedKeyMap V) (ha : 0 ≤ a.count)
    (hb : 0 ≤ b.count) (hcap : a.count * env.sizeofPair ≤ a.dataSize_) :
    (a.lastKey < b.firstKey →
      (insertAfterEnd env a b).2 = true ∧
      (insertAfterEnd env a b).1.entries = a.entries ++ b.entries) ∧
    (¬ a.lastKey < b.firstKey →
      (insertAfterEnd env a b).2 = false ∧ (insertAfterEnd env a b).1 = a) := by
  have hS := env.sizeofPair_pos
  unfold count at ha hb hcap
  constructor
  · intro hlt
    have hg : ¬ b.firstKey ≤ a.lastKey := by omega
    unfold insertAfterEnd
    rw [if_neg hg]
    refine ⟨rfl, ?_⟩
    have hadd : 0 < (b.count_ + a.count_ + BASESIZE) * env.sizeofPair := by
      apply Int.mul_pos _ hS
      unfold BASESIZE; omega
    obtain ⟨r1, _, _, _, _, r6⟩ := realoc_spec env a _ hadd ha hcap
    apply entries_eq_append ha hb
    · simp only
      split_ifs <;> simp only [r1] <;> omega
    · intro i i0 i1
      simp only [dataAt]
      split_ifs <;>
        simp only [copyBytes_whole _ _ _ _ _ _ _ hb, r1] <;>
        rw [if_neg (by omega)]
      all_goals exact r6 i i0 i1
    · intro j j0 j1
      simp only [dataAt]
      split_ifs <;>
        simp only [copyBytes_whole _ _ _ _ _ _ _ hb, r1] <;>
        rw [if_pos (by omega)] <;> congr 1 <;> omega
  · intro hge
    have hg : b.firstKey ≤ a.lastKey := by omega
    unfold insertAfterEnd
    rw [if_pos hg]
    exact ⟨rfl, rfl⟩


/-- Witness of C17 as amended: appending the map `[30]` to the map of the scenario
returns true and gives the keys `[5, 10, 15, 20, 30]`. -/
theorem insertAfterEnd_spec_witness :
    (scenarioMap FindAlgorithm.BinarySeparation).lastKey < scenarioTail.firstKey ∧
    (insertAfterEnd envU32U64 (scenarioMap FindAlgorithm.BinarySeparation) scenarioTail).1.keys
      = [5, 10, 15, 20, 30] ∧
    ((insertAfterEnd envU32U64 (scenarioMap FindAlgorithm.BinarySeparation) scenarioTail).2
        = true ∧
      (insertAfterEnd envU32U64 (scenarioMap FindAlgorithm.BinarySeparation)
        scenarioTail).1.entries
        = (scenarioMap FindAlgorithm.BinarySeparation).entries ++ scenarioTail.entries) :=
  ⟨by decide, by decide,
   (insertAfterEnd_spec envU32U64 (scenarioMap FindAlgorithm.BinarySeparation) scenarioTail
      (by decide) (by decide) (by decide)).1 (by decide)⟩

/-- Counterexample to C17 as stated: the view of the map of the scenario is well-formed
with `lastKey()` 20, the map `[30]` is well-formed with `firstKey()` 30, and
`insertAfterEnd` returns true but leaves the keys `[0, 0, 0, 0, 30]`: the entries of the
view are not copied into the block that `realoc` allocates. -/
theorem insertAfterEnd_on_view :
    scenarioView.WellFormed ∧ scenarioTail.WellFormed ∧
    scenarioView.keys = [5, 10, 15, 20] ∧ scenarioTail.keys = [30] ∧
    scenarioView.lastKey < scenarioTail.firstKey ∧
    (insertAfterEnd envU32U64 scenarioView scenarioTail).2 = true ∧
    (insertAfterEnd envU32U64 scenarioView scenarioTail).1.keys = [0, 0, 0, 0, 30] :=
  ⟨scenarioView_wellFormed,
   (insertAll_invariant envU32U64 FindAlgorithm.BinarySeparation 10 [(30, 1)]).1,
   by decide, by decide, by decide, by decide, by decide⟩

theorem filter_map_range_interval {α : Type} (f : Nat → α) (P : α → Bool) (s c r : Nat)
    (h1 : ∀ i, i < s → P (f i) = false) (h2 : ∀ i, s ≤ i → i < s + c → P (f i) = true)
    (h3 : ∀ i, s + c ≤ i → i < s + c + r → P (f i) = false) :
    ((List.range (s + c + r)).map f).filter P = (List.range c).map (fun j => f (s + j)) := by
  rw [List.range_add, List.range_add, List.map_append, List.map_append, List.filter_append,
    List.filter_append, List.map_map, List.map_map]
  have e1 : List.filter P (List.map f (List.range s)) = [] := by
    rw [List.filter_eq_nil_iff]
    intro a ha
    obtain ⟨i, hi, rfl⟩ := List.mem_map.mp ha
    rw [List.mem_range] at hi
    simp [h1 i hi]
  have e2 : List.filter P (List.map (f ∘ fun x => s + x) (List.range c))
      = List.map (f ∘ fun x => s + x) (List.range c) := by
    rw [List.filter_eq_self]
    intro a ha
    obtain ⟨i, hi, rfl⟩ := List.mem_map.mp ha
    rw [List.mem_range] at hi
    exact h2 (s + i) (by omega) (by omega)
  have e3 : List.filter P (List.map (f ∘ fun x => s + c + x) (List.range r)) = [] := by
    rw [List.filter_eq_nil_iff]
    intro a ha
    obtain ⟨i, hi, rfl⟩ := List.mem_map.mp ha
    rw [List.mem_range] at hi
    simp [h3 (s + c + i) (by omega) (by omega)]
  rw [e1, e2, e3]
  simp only [List.nil_append, List.append_nil]
  rfl

theorem construct_zero_entries (env : Env V) : (construct env 0).entries = [] := by
  unfold entries construct
  simp

theorem mid_of_guard (env : Env V) (alg : FindAlgorithm) (m : OrderedKeyMap V)
    (kfrom kto : Nat) (reserve : Int)
    (h : lowerBound env alg m kfrom = m.count_ ∨
      lowerBound env alg m kto < lowerBound env alg m kfrom) :
    mid env alg m kfrom kto reserve = construct env 0 := by
  unfold mid
  simp only [constEnd]
  rw [if_pos h]

theorem mid_of_not_guard (env : Env V) (alg : FindAlgorithm) (m : OrderedKeyMap V)
    (kfrom kto : Nat) (reserve : Int) (s e2 : Int)
    (hs : lowerBound env alg m kfrom = s)
    (he : (if lowerBound env alg m kto = m.count_ then lowerBound env alg m kto - 1
           else lowerBound env alg m kto) = e2)
    (h : ¬ (lowerBound env alg m kfrom = m.count_ ∨
      lowerBound env alg m kto < lowerBound env alg m kfrom))
    (hc : 0 ≤ e2 - s + 1) :
    (mid env alg m kfrom kto reserve).count_ = e2 - s + 1 ∧
    (∀ j, 0 ≤ j → j < e2 - s + 1 →
      (mid env alg m kfrom kto reserve).dataAt j = m.dataAt (s + j)) ∧
    (mid env alg m kfrom kto reserve).firstKey_ = m.itKey s ∧
    (mid env alg m kfrom kto reserve).lastKey_ = m.itKey e2 := by
  unfold mid
  simp only [constEnd]
  rw [if_neg h]
  simp only [he, hs]
  refine ⟨(by first | rfl | trivial), ?_, (by first | rfl | trivial),
    (by first | rfl | trivial)⟩
  intro j j0 j1
  simp only [dataAt, copyBytes_whole _ _ _ _ _ _ _ hc]
  rw [if_pos (by omega)]
  congr 1
  omega

/-- When `mid` takes its early return, in terms of the keys of the map. -/
theorem mid_guard_iff (env : Env V) (alg : FindAlgorithm) (m : OrderedKeyMap V)
    (kfrom kto : Nat) (hw : m.WellFormed) :
    (lowerBound env alg m kfrom = m.count_ ∨
      lowerBound env alg m kto < lowerBound env alg m kfrom) ↔
    ((∀ k, m.HasKey k → k < kfrom) ∨ ∃ k, m.HasKey k ∧ kto ≤ k ∧ k < kfrom) := by
  obtain ⟨s0, s1, s2, s3⟩ := lowerBound_spec env alg m kfrom hw
  obtain ⟨e0, e1, e2, e3⟩ := lowerBound_spec env alg m kto hw
  generalize lowerBound env alg m kfrom = s at s0 s1 s2 s3
  generalize lowerBound env alg m kto = e at e0 e1 e2 e3
  constructor
  · rintro (h | h)
    · left
      rintro k ⟨i, i0, i1, rfl⟩
      exact s2 i i0 (by omega)
    · right
      exact ⟨m.keyAt e, ⟨e, e0, by omega, rfl⟩, e3 e (le_refl e) (by omega), s2 e e0 h⟩
  · rintro (h | ⟨k, ⟨i, i0, i1, rfl⟩, h1, h2⟩)
    · by_cases hs : s = m.count_
      · exact Or.inl hs
      · have := h _ ⟨s, s0, by omega, rfl⟩
        have := s3 s (le_refl s) (by omega)
        omega
    · right
      have a : i < s := by
        by_contra hcon
        have := s3 i (by omega) i1
        omega
      have b : e ≤ i := by
        by_contra hcon
        have := e2 i i0 (by omega)
        omega
      omega

theorem mid_entries_closed_range (env : Env V) (alg : FindAlgorithm) (m : OrderedKeyMap V)
    (kfrom kto : Nat) (reserve : Int) (hw : m.WellFormed)
    (hto : m.HasKey kto ∨ ∀ k, m.HasKey k → k < kto) :
    (mid env alg m kfrom kto reserve).entries
      = m.entries.filter (fun e => decide (kfrom ≤ e.key ∧ e.key ≤ kto)) := by
  have hn := hw.count_nonneg
  by_cases hg : lowerBound env alg m kfrom = m.count_ ∨
      lowerBound env alg m kto < lowerBound env alg m kfrom
  · rw [mid_of_guard env alg m kfrom kto reserve hg, construct_zero_entries]
    symm
    rw [List.filter_eq_nil_iff]
    intro a ha
    obtain ⟨i, i0, i1, rfl⟩ := (mem_entries m a).mp ha
    simp only [decide_eq_true_eq, not_and, not_le]
    intro hfi
    rcases (mid_guard_iff env alg m kfrom kto hw).mp hg with h | ⟨k, ⟨t, t0, t1, rfl⟩, h1, h2⟩
    · have := h _ ⟨i, i0, i1, rfl⟩
      unfold keyAt at this
      omega
    · have hti : t < i := by
        by_contra hcon
        have := hw.sorted.le_of_le i0 (show i ≤ t by omega) t1
        unfold keyAt at this h2
        omega
      have := hw.sorted.lt_of_lt t0 hti i1
      unfold keyAt at this h1
      omega
  · obtain ⟨s0, s1, s2, s3⟩ := lowerBound_spec env alg m kfrom hw
    obtain ⟨e0, e1, e2, e3⟩ := lowerBound_spec env alg m kto hw
    have hslt : lowerBound env alg m kfrom < m.count_ := by
      by_contra hcon
      exact hg (Or.inl (by omega))
    have hse : lowerBound env alg m kfrom ≤ lowerBound env alg m kto := by
      by_contra hcon
      exact hg (Or.inr (by omega))
    obtain ⟨c1, c2, _, _⟩ := mid_of_not_guard env alg m kfrom kto reserve _ _ rfl rfl hg
      (by split_ifs <;> omega)
    generalize lowerBound env alg m kfrom = s at *
    generalize hed : lowerBound env alg m kto = e at *
    generalize hxd : (if e = m.count_ then e - 1 else e) = x at *
    have hx1 : s ≤ x ∧ x < m.count_ := by
      rw [← hxd]; split_ifs <;> omega
    have hkey : ∀ i, 0 ≤ i → i < m.count_ → (m.keyAt i ≤ kto ↔ i ≤ x) := by
      intro i i0 i1
      by_cases hec : e = m.count_
      · have hx : x = m.count_ - 1 := by rw [← hxd, if_pos hec]; omega
        have := e2 i i0 (by omega)
        constructor
        · intro _; omega
        · intro _; omega
      · have hx : x = e := by rw [← hxd, if_neg hec]
        have hke : m.keyAt e = kto := by
          have hge := e3 e (le_refl e) (by omega)
          rcases hto with ⟨t, t0, t1, tk⟩ | hall
          · have hlt : e ≤ t := by
              by_contra hcon
              have := e2 t t0 (by omega)
              omega
            have := hw.sorted.le_of_le e0 hlt t1
            omega
          · have := hall _ ⟨e, e0, by omega, rfl⟩
            omega
        rw [hx]
        constructor
        · intro hle
          by_contra hcon
          have := hw.sorted.lt_of_lt e0 (show e < i by omega) i1
          omega
        · intro hle
          have := hw.sorted.le_of_le i0 hle (by omega)
          omega
    -- both sides as maps over index ranges
    have hl : (mid env alg m kfrom kto reserve).entries
        = (List.range (x - s + 1).toNat).map (fun j : Nat => m.dataAt ((s.toNat + j : Nat) : Int)) := by
      unfold entries
      rw [c1]
      apply List.map_congr_left
      intro j hj
      rw [List.mem_range] at hj
      rw [c2 j (by omega) (by omega)]
      congr 1
      push_cast
      omega
    rw [hl]
    unfold entries
    have hsplit : m.count_.toNat = s.toNat + (x - s + 1).toNat + (m.count_ - x - 1).toNat := by
      omega
    rw [hsplit]
    symm
    apply filter_map_range_interval (fun i : Nat => m.dataAt (i : Int))
    · intro i hi
      have := s2 i (by omega) (by omega)
      unfold keyAt at this
      simp only [decide_eq_false_iff_not, not_and, not_le]
      intro h; omega
    · intro i hi1 hi2
      have h1 := s3 i (by omega) (by omega)
      have h2 := (hkey i (by omega) (by omega)).mpr (by omega)
      unfold keyAt at h1 h2
      simp only [decide_eq_true_eq]
      exact ⟨h1, h2⟩
    · intro i hi hi2
      simp only [decide_eq_false_iff_not, not_and, not_le]
      intro _
      have := (hkey i (by omega) (by omega)).not.mpr (by omega)
      unfold keyAt at this
      omega


/-- C14, as the code has it: on a well-formed map, when `to` is the key of an entry or
is greater than every key, `mid(from, to)` holds exactly the entries of the source whose
key `k` satisfies `from <= k <= to`, in order and with their values: the range is
closed at `to`. -/
theorem mid_closed_range (env : Env V) (alg : FindAlgorithm) (m : OrderedKeyMap V)
    (kfrom kto : Nat) (reserve : Int) (hw : m.WellFormed)
    (hto : m.HasKey kto ∨ ∀ k, m.HasKey k → k < kto) :
    (mid env alg m kfrom kto reserve).entries
      = m.entries.filter (fun e => decide (kfrom ≤ e.key ∧ e.key ≤ kto)) ∧
    (mid env alg m kfrom kto reserve).keys
      = m.keys.filter (fun k => decide (kfrom ≤ k ∧ k ≤ kto)) := by
  have h := mid_entries_closed_range env alg m kfrom kto reserve hw hto
  refine ⟨h, ?_⟩
  unfold keys
  rw [h, List.filter_map]
  rfl

/-- Witness of C14 as amended: on the keys `[5, 10, 15, 20]`, `mid(10, 20)` has the keys
`[10, 15, 20]`, the keys between 10 and 20 with both ends included. -/
theorem mid_closed_range_witness :
    (scenarioMap FindAlgorithm.BinarySeparation).HasKey 20 ∧
    (mid envU32U64 FindAlgorithm.BinarySeparation
      (scenarioMap FindAlgorithm.BinarySeparation) 10 20 0).keys
      = (scenarioMap FindAlgorithm.BinarySeparation).keys.filter
          (fun k => decide (10 ≤ k ∧ k ≤ 20)) :=
  ⟨(scenarioMap_hasKey_iff _ 20).mpr (by decide),
   (mid_closed_range envU32U64 FindAlgorithm.BinarySeparation
      (scenarioMap FindAlgorithm.BinarySeparation) 10 20 0 (scenarioMap_wellFormed _)
      (Or.inl ((scenarioMap_hasKey_iff _ 20).mpr (by decide)))).2⟩

/-- Counterexample to C14 as stated: on the keys `[5, 10, 15, 20]`, `mid(10, 20)` has
the keys `[10, 15, 20]`, not the keys `[10, 15]` of the half-open range. -/
theorem mid_scenario_includes_to :
    (scenarioMap FindAlgorithm.BinarySeparation).WellFormed ∧
    (scenarioMap FindAlgorithm.BinarySeparation).keys = [5, 10, 15, 20] ∧
    (mid envU32U64 FindAlgorithm.BinarySeparation
      (scenarioMap FindAlgorithm.BinarySeparation) 10 20 0).keys = [10, 15, 20] ∧
    (scenarioMap FindAlgorithm.BinarySeparation).keys.filter
      (fun k => decide (10 ≤ k ∧ k < 20)) = [10, 15] :=
  ⟨scenarioMap_wellFormed _, by decide, by decide, by decide⟩

/-- C15, as the code has it: on a well-formed map, for keys `from < to` where `to` is
the key of an entry, the result of `mid(from, to)` contains the entry with key `to`,
and `to` is its `lastKey()`: the entry on which `to` lands is included. -/
theorem mid_includes_to (env : Env V) (alg : FindAlgorithm) (m : OrderedKeyMap V)
    (kfrom kto : Nat) (reserve : Int) (hw : m.WellFormed) (hft : kfrom < kto)
    (hto : m.HasKey kto) :
    kto ∈ (mid env alg m kfrom kto reserve).keys ∧
    (mid env alg m kfrom kto reserve).lastKey = kto := by
  constructor
  · unfold keys
    rw [mid_entries_closed_range env alg m kfrom kto reserve hw (Or.inl hto)]
    obtain ⟨t, t0, t1, tk⟩ := hto
    refine List.mem_map.mpr ⟨m.dataAt t, ?_, tk⟩
    rw [List.mem_filter]
    refine ⟨(mem_entries m _).mpr ⟨t, t0, t1, rfl⟩, ?_⟩
    have : (m.dataAt t).key = kto := tk
    simp only [decide_eq_true_eq, this]
    omega
  · obtain ⟨t, t0, t1, tk⟩ := hto
    have hg : ¬ (lowerBound env alg m kfrom = m.count_ ∨
        lowerBound env alg m kto < lowerBound env alg m kfrom) := by
      rw [mid_guard_iff env alg m kfrom kto hw]
      rintro (h | ⟨k, _, h1, h2⟩)
      · have := h kto ⟨t, t0, t1, tk⟩
        omega
      · omega
    have he : lowerBound env alg m kto = t := by
      apply lowerBound_eq_of_isLowerBound env alg m kto hw
      refine ⟨t0, le_of_lt t1, ?_, ?_⟩
      · intro j j0 j1
        have := hw.sorted.lt_of_lt j0 j1 t1
        omega
      · intro j j0 j1
        have := hw.sorted.le_of_le t0 j0 j1
        omega
    have hs : lowerBound env alg m kfrom ≤ t := by
      by_contra hcon
      exact hg (Or.inr (by rw [he]; omega))
    obtain ⟨_, _, _, c4⟩ := mid_of_not_guard env alg m kfrom kto reserve _ _ rfl rfl hg
      (by rw [he, if_neg (by omega)]; omega)
    unfold lastKey
    rw [c4, he, if_neg (by omega), itKey_of_lt m t0 t1]
    exact tk

/-- Witness of C15 as amended: on the keys `[5, 10, 15, 20]`, where 15 is not the last
key, `mid(5, 15)` has the keys `[5, 10, 15]` and `lastKey()` 15. -/
theorem mid_includes_to_witness :
    (mid envU32U64 FindAlgorithm.BinarySeparation
      (scenarioMap FindAlgorithm.BinarySeparation) 5 15 0).keys = [5, 10, 15] ∧
    (15 ∈ (mid envU32U64 FindAlgorithm.BinarySeparation
        (scenarioMap FindAlgorithm.BinarySeparation) 5 15 0).keys ∧
      (mid envU32U64 FindAlgorithm.BinarySeparation
        (scenarioMap FindAlgorithm.BinarySeparation) 5 15 0).lastKey = 15) :=
  ⟨by decide,
   mid_includes_to envU32U64 FindAlgorithm.BinarySeparation
     (scenarioMap FindAlgorithm.BinarySeparation) 5 15 0 (scenarioMap_wellFormed _)
     (by decide) ((scenarioMap_hasKey_iff _ 15).mpr (by decide))⟩

/-- Counterexample to C15 as stated: on the keys `[5, 10, 15, 20]` key 15 is the key of
an entry that is not the last one (`lastKey()` is 20), and `mid(5, 15)` has the keys
`[5, 10, 15]`, among them 15. -/
theorem mid_scenario_keeps_inner_to :
    (scenarioMap FindAlgorithm.BinarySeparation).WellFormed ∧
    (scenarioMap FindAlgorithm.BinarySeparation).keyAt 2 = 15 ∧
    (scenarioMap FindAlgorithm.BinarySeparation).lastKey = 20 ∧
    (mid envU32U64 FindAlgorithm.BinarySeparation
      (scenarioMap FindAlgorithm.BinarySeparation) 5 15 0).keys = [5, 10, 15] :=
  ⟨scenarioMap_wellFormed _, by decide, by decide, by decide⟩

/-- C16, as the code has it: on a well-formed map, `mid(from, to)` is empty when `from`
is greater than every key of the map, and when some entry has a key `k` with
`to <= k < from` (an inverted range that spans a key); when `from == to` is the key of
an entry, the result is that one entry, the range being closed at `to`. -/
theorem mid_empty_or_single (env : Env V) (alg : FindAlgorithm) (m : OrderedKeyMap V)
    (kfrom kto : Nat) (reserve : Int) (hw : m.WellFormed) :
    (((∀ k, m.HasKey k → k < kfrom) ∨ ∃ k, m.HasKey k ∧ kto ≤ k ∧ k < kfrom) →
      (mid env alg m kfrom kto reserve).count = 0 ∧
      (mid env alg m kfrom kto reserve).entries = []) ∧
    (∀ i, 0 ≤ i → i < m.count → m.keyAt i = kfrom → kto = kfrom →
      (mid env alg m kfrom kto reserve).count = 1 ∧
      (mid env alg m kfrom kto reserve).entries = [m.dataAt i]) := by
  constructor
  · intro h
    have hg := (mid_guard_iff env alg m kfrom kto hw).mpr h
    rw [mid_of_guard env alg m kfrom kto reserve hg]
    refine ⟨?_, construct_zero_entries env⟩
    unfold count construct
    simp
  · intro i i0 i1 hk hto
    subst hto
    unfold count at i1
    have hlb : lowerBound env alg m kto = i := by
      apply lowerBound_eq_of_isLowerBound env alg m kto hw
      refine ⟨i0, le_of_lt i1, ?_, ?_⟩
      · intro j j0 j1
        have := hw.sorted.lt_of_lt j0 j1 i1
        omega
      · intro j j0 j1
        have := hw.sorted.le_of_le i0 j0 j1
        omega
    have hg : ¬ (lowerBound env alg m kto = m.count_ ∨
        lowerBound env alg m kto < lowerBound env alg m kto) := by
      rw [hlb]; omega
    obtain ⟨c1, c2, _, _⟩ := mid_of_not_guard env alg m kto kto reserve i i hlb
      (by rw [hlb, if_neg (by omega)]) hg (by omega)
    have hc : (mid env alg m kto kto reserve).count_ = 1 := by rw [c1]; omega
    refine ⟨hc, ?_⟩
    unfold entries
    rw [hc]
    have h0 := c2 0 (le_refl 0) (by omega)
    simp only [add_zero] at h0
    have hr : List.range (1 : Int).toNat = [0] := rfl
    rw [hr]
    simp only [List.map_cons, List.map_nil, Nat.cast_zero]
    rw [h0]

/-- Witness of C16 as amended: on the keys `[5, 10, 15, 20]` the inverted range
`mid(15, 10)`, which spans key 10, is empty, and the range `mid(10, 10)` holds the one
entry of key 10. -/
theorem mid_empty_or_single_witness :
    ((mid envU32U64 FindAlgorithm.BinarySeparation
        (scenarioMap FindAlgorithm.BinarySeparation) 15 10 0).count = 0 ∧
      (mid envU32U64 FindAlgorithm.BinarySeparation
        (scenarioMap FindAlgorithm.BinarySeparation) 15 10 0).entries = []) ∧
    ((mid envU32U64 FindAlgorithm.BinarySeparation
        (scenarioMap FindAlgorithm.BinarySeparation) 10 10 0).count = 1 ∧
      (mid envU32U64 FindAlgorithm.BinarySeparation
        (scenarioMap FindAlgorithm.BinarySeparation) 10 10 0).entries
        = [(scenarioMap FindAlgorithm.BinarySeparation).dataAt 1]) :=
  ⟨(mid_empty_or_single envU32U64 FindAlgorithm.BinarySeparation
      (scenarioMap FindAlgorithm.BinarySeparation) 15 10 0 (scenarioMap_wellFormed _)).1
      (Or.inr ⟨10, (scenarioMap_hasKey_iff _ 10).mpr (by decide), by decide, by decide⟩),
   (mid_empty_or_single envU32U64 FindAlgorithm.BinarySeparation
      (scenarioMap FindAlgorithm.BinarySeparation) 10 10 0 (scenarioMap_wellFormed _)).2 1
      (by decide) (by decide) (by decide) rfl⟩

/-- Counterexample to C16 as stated: on the keys `[5, 10, 15, 20]` the empty range
`mid(10, 10)` is not an empty map: it holds the entry of key 10. -/
theorem mid_scenario_empty_range :
    (scenarioMap FindAlgorithm.BinarySeparation).WellFormed ∧
    (scenarioMap FindAlgorithm.BinarySeparation).keys = [5, 10, 15, 20] ∧
    (mid envU32U64 FindAlgorithm.BinarySeparation
      (scenarioMap FindAlgorithm.BinarySeparation) 10 10 0).count = 1 ∧
    (mid envU32U64 FindAlgorithm.BinarySeparation
      (scenarioMap FindAlgorithm.BinarySeparation) 10 10 0).keys = [10] :=
  ⟨scenarioMap_wellFormed _, by decide, by decide, by decide⟩


/-! ## Reserving -/

theorem isUpperBound_unique {m : OrderedKeyMap V} {key : Nat} {p q : Int}
    (hp : m.IsUpperBound key p) (hq : m.IsUpperBound key q) : p = q := by
  obtain ⟨p0, p1, p2, p3⟩ := hp
  obtain ⟨q0, q1, q2, q3⟩ := hq
  rcases lt_trichotomy p q with h | h | h
  · have a := p3 p (le_refl p) (by omega)
    have b := q2 p p0 h
    omega
  · exact h
  · have a := q3 q (le_refl q) (by omega)
    have b := p2 q q0 h
    omega

/-- C26: on a well-formed map, with either search algorithm, `findAlt(key)` returns the
same position as `find(key)`. -/
theorem findAlt_eq_find (env : Env V) (alg : FindAlgorithm) (m : OrderedKeyMap V) (key : Nat)
    (hw : m.WellFormed) : findAlt env alg m key = find env alg m key := by
  obtain ⟨hhit, hmiss⟩ := find_spec env alg m key hw
  obtain ⟨hn, hs, hc⟩ := hw
  unfold findAlt
  by_cases he : m.count_ = 0
  · rw [if_pos (Or.inl (by simp [empty, he]))]
    exact (hmiss (fun i i0 i1 => by omega)).symm
  · have hpos : 0 < m.count_ := by omega
    obtain ⟨hf, hl⟩ := hc hpos
    have hemp : ¬ (m.empty = true) := by simp [empty, he]
    by_cases h1 : key > m.lastKey_
    · rw [if_pos (Or.inr (Or.inl h1))]
      refine (hmiss (fun i i0 i1 hk => ?_)).symm
      have := hs.le_of_le i0 (show i ≤ m.count_ - 1 by omega) (by omega)
      omega
    · by_cases h2 : key < m.firstKey_
      · rw [if_pos (Or.inr (Or.inr h2))]
        refine (hmiss (fun i i0 i1 hk => ?_)).symm
        have := hs.le_of_le (le_refl 0) i0 i1
        omega
      · rw [if_neg (by simp only [not_or]; exact ⟨hemp, h1, h2⟩)]
        by_cases h3 : key = m.lastKey_
        · rw [if_pos h3]
          exact (hhit (m.count_ - 1) (by omega) (by omega) (by omega)).symm
        · rw [if_neg h3]
          by_cases h4 : key = m.firstKey_
          · rw [if_pos h4]
            exact (hhit 0 (le_refl 0) hpos (by omega)).symm
          · rw [if_neg h4]
            have hc1 : 1 < m.count_ := by
              by_contra hcc
              have : m.count_ = 1 := by omega
              rw [this] at hl
              simp at hl
              omega
            have hr := internalSearch_result env alg m key SearchType.Find hc1
              (by omega) (by omega)
            rcases hr with ⟨pos, a1, a2, a3, a4⟩ | ⟨e2, a1, a2, a3, a4, a5⟩
            · simp at a4
              rw [a4]
              exact (hhit pos (by omega) (by omega) a3).symm
            · simp [searchExit] at a5
              rw [a5]
              refine (hmiss (fun i i0 i1 hk => ?_)).symm
              by_cases hi : i < e2
              · have := hs.le_of_le i0 (show i ≤ e2 - 1 by omega) (by omega)
                omega
              · have := hs.le_of_le (by omega) (show e2 ≤ i by omega) i1
                omega

/-- Witness of C26: on the keys `[5, 10, 15, 20]`, `findAlt(15)` and `find(15)` are both
position 2, and `findAlt(12)` and `find(12)` are both `end()`. -/
theorem findAlt_eq_find_witness :
    findAlt envU32U64 FindAlgorithm.RelativePrediction
      (scenarioMap FindAlgorithm.RelativePrediction) 15 = 2 ∧
    findAlt envU32U64 FindAlgorithm.BinarySeparation
      (scenarioMap FindAlgorithm.BinarySeparation) 12 = 4 ∧
    findAlt envU32U64 FindAlgorithm.RelativePrediction
      (scenarioMap FindAlgorithm.RelativePrediction) 15
      = find envU32U64 FindAlgorithm.RelativePrediction
        (scenarioMap FindAlgorithm.RelativePrediction) 15 ∧
    findAlt envU32U64 FindAlgorithm.BinarySeparation
      (scenarioMap FindAlgorithm.BinarySeparation) 12
      = find envU32U64 FindAlgorithm.BinarySeparation
        (scenarioMap FindAlgorithm.BinarySeparation) 12 :=
  ⟨by decide, by decide,
   findAlt_eq_find envU32U64 FindAlgorithm.RelativePrediction
     (scenarioMap FindAlgorithm.RelativePrediction) 15 (scenarioMap_wellFormed _),
   findAlt_eq_find envU32U64 FindAlgorithm.BinarySeparation
     (scenarioMap FindAlgorithm.BinarySeparation) 12 (scenarioMap_wellFormed _)⟩

/-- C27: on a well-formed map, with either search algorithm, `upperBoundAlt(key)` returns
the same position as `upperBound(key)`. -/
theorem upperBoundAlt_eq_upperBound (env : Env V) (alg : FindAlgorithm)
    (m : OrderedKeyMap V) (key : Nat) (hw : m.WellFormed) :
    upperBoundAlt env alg m key = upperBound env alg m key := by
  have hub : m.IsUpperBound key (upperBound env alg m key) := upperBound_spec env alg m key hw
  refine isUpperBound_unique ?_ hub
  obtain ⟨hn, hs, hc⟩ := hw
  unfold upperBoundAlt
  by_cases he : m.count_ = 0
  · rw [if_pos (Or.inl (by simp [empty, he]))]
    exact ⟨by simp [constEnd, he], by simp [constEnd],
      fun i i0 i1 => by simp [constEnd, he] at i1; omega,
      fun i i0 i1 => by simp [constEnd] at i0; omega⟩
  · have hpos : 0 < m.count_ := by omega
    obtain ⟨hf, hl⟩ := hc hpos
    have hemp : ¬ (m.empty = true) := by simp [empty, he]
    by_cases h1 : key ≥ m.lastKey_
    · rw [if_pos (Or.inr h1)]
      refine ⟨by simp [constEnd]; omega, by simp [constEnd], fun i i0 i1 => ?_,
        fun i i0 i1 => by simp [constEnd] at i0; omega⟩
      simp only [constEnd] at i1
      have := hs.le_of_le i0 (show i ≤ m.count_ - 1 by omega) (by omega)
      omega
    · rw [if_neg (by simp only [not_or]; exact ⟨hemp, h1⟩)]
      have hc1 : key ≥ m.firstKey_ → 1 < m.count_ := by
        intro hge
        by_contra hcc
        have : m.count_ = 1 := by omega
        rw [this] at hl
        simp at hl
        omega
      by_cases h2 : key = m.firstKey_
      · rw [if_pos h2]
        have := hc1 (by omega)
        refine ⟨by omega, by omega, fun i i0 i1 => ?_, fun i i0 i1 => ?_⟩
        · have : i = 0 := by omega
          rw [this]; omega
        · have := hs.lt_of_lt (le_refl 0) (show 0 < i by omega) i1
          omega
      · rw [if_neg h2]
        by_cases h3 : key < m.firstKey_
        · rw [if_pos h3]
          refine ⟨le_refl 0, hn, fun i i0 i1 => by omega, fun i i0 i1 => ?_⟩
          have := hs.le_of_le (le_refl 0) i0 i1
          omega
        · rw [if_neg h3]
          have hr := internalSearch_result env alg m key SearchType.UpperBound
            (hc1 (by omega)) (by omega) (by omega)
          rcases hr with ⟨pos, a1, a2, a3, a4⟩ | ⟨e2, a1, a2, a3, a4, a5⟩
          · simp at a4
            rw [a4]
            refine ⟨by omega, by omega, fun i i0 i1 => ?_, fun i i0 i1 => ?_⟩
            · have := hs.le_of_le i0 (show i ≤ pos by omega) (by omega)
              omega
            · have := hs.lt_of_lt (by omega) (show pos < i by omega) i1
              omega
          · simp [searchExit] at a5
            rw [a5]
            refine ⟨by omega, by omega, fun i i0 i1 => ?_, fun i i0 i1 => ?_⟩
            · have := hs.le_of_le i0 (show i ≤ e2 - 1 by omega) (by omega)
              omega
            · have := hs.le_of_le (by omega) i0 i1
              omega

/-- Witness of C27: on the keys `[5, 10, 15, 20]`, `upperBoundAlt(15)` and
`upperBound(15)` are both position 3. -/
theorem upperBoundAlt_eq_upperBound_witness :
    upperBoundAlt envU32U64 FindAlgorithm.RelativePrediction
      (scenarioMap FindAlgorithm.RelativePrediction) 15 = 3 ∧
    upperBoundAlt envU32U64 FindAlgorithm.RelativePrediction
      (scenarioMap FindAlgorithm.RelativePrediction) 15
      = upperBound envU32U64 FindAlgorithm.RelativePrediction
        (scenarioMap FindAlgorithm.RelativePrediction) 15 :=
  ⟨by decide,
   upperBoundAlt_eq_upperBound envU32U64 FindAlgorithm.RelativePrediction
     (scenarioMap FindAlgorithm.RelativePrediction) 15 (scenarioMap_wellFormed _)⟩


/-! ## Termination of the search loops -/

theorem binaryIterations_bound (m : OrderedKeyMap V) (key : Nat) :
    ∀ (fuel : Nat) (b e : Int), e - b ≤ fuel →
      ∃ n : Nat, binaryIterations m key fuel b e = some n ∧ (n : Int) ≤ max 0 (e - b - 1) := by
  intro fuel
  induction fuel with
  | zero =>
    intro b e hf
    refine ⟨0, ?_, by simp⟩
    simp only [binaryIterations]
    rw [if_neg (by simp at hf; omega)]
  | succ fuel ih =>
    intro b e hf
    rw [binaryIterations]
    by_cases hc : b + 1 < e
    · simp only [hc, if_true]
      have hp1 : b < (e + b) / 2 := by omega
      have hp2 : (e + b) / 2 < e := by omega
      by_cases hk : (m.dataAt ((e + b) / 2)).key = key
      · simp only [hk, if_true]
        exact ⟨1, rfl, by omega⟩
      · simp only [hk, if_false]
        by_cases hg : key > (m.dataAt ((e + b) / 2)).key
        · simp only [hg, if_true]
          obtain ⟨n, h1, h2⟩ := ih ((e + b) / 2) e (by push_cast at hf; omega)
          exact ⟨n + 1, by rw [h1]; rfl, by push_cast; omega⟩
        · simp only [hg, if_false]
          obtain ⟨n, h1, h2⟩ := ih b ((e + b) / 2) (by push_cast at hf; omega)
          exact ⟨n + 1, by rw [h1]; rfl, by push_cast; omega⟩
    · simp only [hc, if_false]
      exact ⟨0, rfl, by simp⟩

theorem relativeIterations_bound (env : Env V) (m : OrderedKeyMap V) (key : Nat) :
    ∀ (fuel : Nat) (b e : Int) (beginKey endKey : Nat), e - b ≤ fuel →
      ∃ n : Nat, relativeIterations env m key fuel b e beginKey endKey = some n ∧
        (n : Int) ≤ max 0 (e - b - 1) := by
  intro fuel
  induction fuel with
  | zero =>
    intro b e beginKey endKey hf
    refine ⟨0, ?_, by simp⟩
    simp only [relativeIterations]
    rw [if_neg (by simp at hf; omega)]
  | succ fuel ih =>
    intro b e beginKey endKey hf
    rw [relativeIterations]
    by_cases hc : b + 1 < e
    · simp only [hc, if_true]
      obtain ⟨hp1, hp2⟩ := clampProbe_bounds b e (env.predict b e key beginKey endKey) hc
      generalize clampProbe b e (env.predict b e key beginKey endKey) = pos at hp1 hp2
      by_cases hk : (m.dataAt pos).key = key
      · simp only [hk, if_true]
        exact ⟨1, rfl, by omega⟩
      · simp only [hk, if_false]
        by_cases hg : key > (m.dataAt pos).key
        · simp only [hg, if_true]
          obtain ⟨n, h1, h2⟩ := ih pos e (m.dataAt pos).key endKey (by push_cast at hf; omega)
          exact ⟨n + 1, by rw [h1]; rfl, by push_cast; omega⟩
        · simp only [hg, if_false]
          obtain ⟨n, h1, h2⟩ := ih b pos beginKey (m.dataAt pos).key (by push_cast at hf; omega)
          exact ⟨n + 1, by rw [h1]; rfl, by push_cast; omega⟩
    · simp only [hc, if_false]
      exact ⟨0, rfl, by simp⟩

/-- C23: both loops of `internalSearch` terminate, for every map and key: while
`begin + 1 < end` the probe is strictly between `begin` and `end` (the midpoint in
BinarySeparation, the clamped value in RelativePrediction, whatever the interpolation
expression gives), and from `begin = 0`, `end = count() - 1` the body of either loop is
executed at most `count()` times. -/
theorem internalSearch_terminates (env : Env V) (m : OrderedKeyMap V) (key : Nat) :
    (∀ b e : Int, b + 1 < e → b < (e + b) / 2 ∧ (e + b) / 2 < e) ∧
    (∀ b e x : Int, b + 1 < e → b < clampProbe b e x ∧ clampProbe b e x < e) ∧
    (∀ fuel : Nat, m.count ≤ fuel →
      ∃ n : Nat, binaryIterations m key fuel 0 (m.count - 1) = some n ∧ n ≤ m.count.toNat) ∧
    (∀ fuel : Nat, m.count ≤ fuel →
      ∃ n : Nat, relativeIterations env m key fuel 0 (m.count - 1) m.firstKey m.lastKey
        = some n ∧ n ≤ m.count.toNat) := by
  refine ⟨fun b e h => by omega, fun b e x h => clampProbe_bounds b e x h, ?_, ?_⟩
  · intro fuel hf
    obtain ⟨n, h1, h2⟩ := binaryIterations_bound m key fuel 0 (m.count - 1) (by omega)
    exact ⟨n, h1, by omega⟩
  · intro fuel hf
    obtain ⟨n, h1, h2⟩ :=
      relativeIterations_bound env m key fuel 0 (m.count - 1) m.firstKey m.lastKey (by omega)
    exact ⟨n, h1, by omega⟩

/-- Witness of C23: on the keys `[5, 10, 15, 20]` the search for key 12 executes the
body of either loop twice. -/
theorem internalSearch_terminates_witness :
    binaryIterations (scenarioMap FindAlgorithm.BinarySeparation) 12 4 0 3 = some 2 ∧
    relativeIterations envU32U64 (scenarioMap FindAlgorithm.RelativePrediction) 12 4 0 3 5 20
      = some 2 ∧
    ∃ n : Nat, binaryIterations (scenarioMap FindAlgorithm.BinarySeparation) 12 4 0
        ((scenarioMap FindAlgorithm.BinarySeparation).count - 1) = some n ∧
      n ≤ (scenarioMap FindAlgorithm.BinarySeparation).count.toNat :=
  ⟨by decide, by decide,
   (internalSearch_terminates envU32U64 (scenarioMap FindAlgorithm.BinarySeparation)
      12).2.2.1 4 (by decide)⟩

/-! ## Growth of the block on insertion -/

theorem insert_miss_dataSize (env : Env V) (alg : FindAlgorithm) (m : OrderedKeyMap V)
    (key : Nat) (v : V) (hw : m.WellFormed) (hcap : HasCapacity env m)
    (hno : ¬ m.HasKey key) :
    (insert env alg m key v).1.dataSize_
      = if (m.count_ + 1) * env.sizeofPair > m.dataSize_ then 2 * m.dataSize_
        else m.dataSize_ := by
  have hS := env.sizeofPair_pos
  have hd : m.dataSize_ ≠ 0 := by have := hcap.1; omega
  have hlb := lowerBound_spec env alg m key hw
  obtain ⟨hn, hs, hc⟩ := hw
  obtain ⟨c1, c2⟩ := hcap
  unfold insert
  simp only [if_neg hd]
  by_cases he : m.count_ = 0
  · rw [if_pos (by simp [empty, he])]
    simp only [he]
    rw [if_neg (by omega)]
  · have hpos : 0 < m.count_ := by omega
    obtain ⟨hf, hl⟩ := hc hpos
    rw [if_neg (by simp [empty, he])]
    by_cases h1 : key > m.lastKey_
    · rw [if_pos h1]
      by_cases hg : (m.count_ + 1) * env.sizeofPair > m.dataSize_
      · obtain ⟨_, _, _, _, r5, _⟩ := realoc_double env m ⟨c1, c2⟩
        simp only [if_pos hg]
        exact r5
      · simp only [if_neg hg]
    · rw [if_neg h1]
      generalize lowerBound env alg m key = p at hlb
      obtain ⟨p0, p1, p2, p3⟩ := hlb
      have hplt : p < m.count_ := by
        by_contra hcon
        have : p = m.count_ := by omega
        subst this
        have := p2 (m.count_ - 1) (by omega) (by omega)
        omega
      have hne : m.keyAt p ≠ key := fun h => hno ⟨p, p0, hplt, h⟩
      simp only [itKey_of_lt m p0 hplt, if_neg hne]
      have h2 : 2 * m.dataSize_ > 0 := by omega
      unfold insertBefore
      simp only [reserveData, if_pos h2]
      split_ifs <;> rfl

/-- C22: on a well-formed map whose block has room for one entry and for its `count`
entries, after `insert(key, value)` the block still has room for the new `count`, and
`dataSize_` is unchanged or exactly doubled; it is doubled exactly when an entry was
added (`count` grew by one) while `(count+1)*sizeof(Pair) > dataSize_`, whichever path
added it. -/
theorem insert_capacity (env : Env V) (alg : FindAlgorithm) (m : OrderedKeyMap V)
    (key : Nat) (v : V) (hw : m.WellFormed) (hcap : HasCapacity env m) :
    (insert env alg m key v).1.count * env.sizeofPair ≤ (insert env alg m key v).1.dataSize_ ∧
    ((insert env alg m key v).1.dataSize_ = m.dataSize_ ∨
      (insert env alg m key v).1.dataSize_ = 2 * m.dataSize_) ∧
    ((insert env alg m key v).1.dataSize_ = 2 * m.dataSize_ ↔
      ((insert env alg m key v).1.count = m.count + 1 ∧
        (m.count + 1) * env.sizeofPair > m.dataSize_)) := by
  have hS := env.sizeofPair_pos
  have hd : m.dataSize_ ≠ 0 := by have := hcap.1; omega
  have hdpos : 0 < m.dataSize_ := by have := hcap.1; omega
  unfold count
  by_cases hk : m.HasKey key
  · obtain ⟨p, p0, p1, p2⟩ := hk
    rw [insert_hit env alg m key v hw hd p0 p1 p2]
    refine ⟨hcap.2, Or.inl rfl, ?_⟩
    simp only
    constructor
    · intro h; omega
    · rintro ⟨h, _⟩; omega
  · obtain ⟨p, _, ⟨i1, _, _, _⟩, _, _, hc2, _⟩ := insert_miss env alg m key v hw hcap hk
    have hds := insert_miss_dataSize env alg m key v hw hcap hk
    refine ⟨hc2.2, ?_, ?_⟩
    · rw [hds]; split_ifs
      · exact Or.inr rfl
      · exact Or.inl rfl
    · rw [hds, i1]
      by_cases hg : (m.count_ + 1) * env.sizeofPair > m.dataSize_
      · rw [if_pos hg]
        exact ⟨fun _ => ⟨rfl, hg⟩, fun _ => rfl⟩
      · rw [if_neg hg]
        constructor
        · intro h; omega
        · rintro ⟨_, h⟩; exact absurd h hg

/-- Witness of C22: `insert(10, 2)` on a map with one entry in a block of one entry
doubles `dataSize_` from 16 to 32; `insert(12, 9)` on the map of the scenario, 4 entries
in a block of 6400, adds an entry and leaves `dataSize_` at 102400. -/
theorem insert_capacity_witness :
    (insertAll envU32U64 FindAlgorithm.BinarySeparation (construct envU32U64 1)
      [(5, 1)]).dataSize_ = 16 ∧
    (insert envU32U64 FindAlgorithm.BinarySeparation
      (insertAll envU32U64 FindAlgorithm.BinarySeparation (construct envU32U64 1) [(5, 1)])
      10 2).1.dataSize_ = 32 ∧
    (insert envU32U64 FindAlgorithm.BinarySeparation
      (scenarioMap FindAlgorithm.BinarySeparation) 12 9).1.dataSize_ = 102400 ∧
    (insert envU32U64 FindAlgorithm.BinarySeparation
      (scenarioMap FindAlgorithm.BinarySeparation) 12 9).1.count * envU32U64.sizeofPair
      ≤ (insert envU32U64 FindAlgorithm.BinarySeparation
        (scenarioMap FindAlgorithm.BinarySeparation) 12 9).1.dataSize_ :=
  ⟨by decide, by decide, by decide,
   (insert_capacity envU32U64 FindAlgorithm.BinarySeparation
      (scenarioMap FindAlgorithm.BinarySeparation) 12 9 (scenarioMap_wellFormed _)
      ⟨by decide, by decide⟩).1⟩


/-! ## The raw view -/

theorem fromRawData_own_block (env : Env V) (m : OrderedKeyMap V) (hw : m.WellFormed)
    (hs : m.SentinelOk) :
    (fromRawData env m.data (m.dataSize env)).count_ = m.count_ ∧
    (fromRawData env m.data (m.dataSize env)).firstKey_ = m.firstKey_ ∧
    (fromRawData env m.data (m.dataSize env)).lastKey_ = m.lastKey_ ∧
    (fromRawData env m.data (m.dataSize env)).data_ = m.data_ := by
  have hS := env.sizeofPair_pos
  have hq : m.count_ * env.sizeofPair / env.sizeofPair = m.count_ :=
    Int.mul_ediv_cancel m.count_ (ne_of_gt hS)
  have hn := hw.count_nonneg
  unfold fromRawData dataSize data construct
  simp only [hq, gt_iff_lt, lt_self_iff_false, if_false]
  by_cases he : m.count_ = 0
  · obtain ⟨s1, s2⟩ := hs he
    rw [if_neg (by simpa using he)]
    exact ⟨rfl, s1.symm, s2.symm, rfl⟩
  · obtain ⟨hf, hl⟩ := hw.cache (by omega)
    rw [if_pos he]
    refine ⟨rfl, ?_, ?_, rfl⟩
    · simp only [atPos, itKey, dataAt]
      split_ifs <;> first | exact hf.symm | omega
    · simp only [atPos, itKey, dataAt]
      split_ifs <;> first | exact hl.symm | omega

/-- C21: for a well-formed map `m` (with the sentinel keys 0 if it is empty), the view
`v = fromRawData(m.data(), m.dataSize())` has the same `count()`, `firstKey()` and
`lastKey()` as `m`, the same key and value at every index, and `m.equal(v)` is true. -/
theorem fromRawData_roundtrip [DecidableEq V] (env : Env V) (rep : ObjectRep V)
    (m : OrderedKeyMap V) (hw : m.WellFormed) (hs : m.SentinelOk) :
    (fromRawData env m.data (m.dataSize env)).count = m.count ∧
    (fromRawData env m.data (m.dataSize env)).firstKey = m.firstKey ∧
    (fromRawData env m.data (m.dataSize env)).lastKey = m.lastKey ∧
    (∀ i, (fromRawData env m.data (m.dataSize env)).dataAt i = m.dataAt i) ∧
    equal env rep m (fromRawData env m.data (m.dataSize env)) = true := by
  obtain ⟨h1, h2, h3, h4⟩ := fromRawData_own_block env m hw hs
  refine ⟨h1, h2, h3, fun i => by unfold dataAt; rw [h4], ?_⟩
  unfold equal
  rw [if_neg (by unfold count; simp only [h1, h2, h3]; simp)]
  by_cases h8 : rep.sizeofType % 8 = 0
  · rw [if_pos h8, h4, rep.memcmp_self]
    simp
  · rw [if_neg h8, List.all_eq_true]
    intro i _
    simp only [itKey, itValue, dataAt, h1, h4]
    simp

/-- Witness of C21: the view of the map of the scenario has 4 entries, `firstKey()` 5,
`lastKey()` 20, the keys `[5, 10, 15, 20]`, and `equal` returns true. -/
theorem fromRawData_roundtrip_witness :
    scenarioView.count = 4 ∧ scenarioView.keys = [5, 10, 15, 20] ∧
    (scenarioView.count = (scenarioMap FindAlgorithm.BinarySeparation).count ∧
      scenarioView.firstKey = (scenarioMap FindAlgorithm.BinarySeparation).firstKey ∧
      scenarioView.lastKey = (scenarioMap FindAlgorithm.BinarySeparation).lastKey ∧
      (∀ i, scenarioView.dataAt i = (scenarioMap FindAlgorithm.BinarySeparation).dataAt i) ∧
      equal envU32U64 repU32U64 (scenarioMap FindAlgorithm.BinarySeparation) scenarioView
        = true) :=
  ⟨by decide, by decide,
   fromRawData_roundtrip envU32U64 repU32U64 (scenarioMap FindAlgorithm.BinarySeparation)
     (scenarioMap_wellFormed _) (fun h => absurd h (by decide))⟩


/-! ## The cached keys after a merge -/

/-- C25 fails on the code: key 12 is not in the map of the scenario, the const
`operator []` returns the default value 0 for it, and `value(12)` returns 0 as well but
leaves the map with 5 entries, the keys `[5, 10, 12, 15, 20]`. -/
theorem value_inserts_on_miss :
    ¬ (scenarioMap FindAlgorithm.BinarySeparation).HasKey 12 ∧
    indexConst envU32U64 FindAlgorithm.BinarySeparation
      (scenarioMap FindAlgorithm.BinarySeparation) 12 = 0 ∧
    (value envU32U64 FindAlgorithm.BinarySeparation
      (scenarioMap FindAlgorithm.BinarySeparation) 12).2 = 0 ∧
    (scenarioMap FindAlgorithm.BinarySeparation).count = 4 ∧
    (value envU32U64 FindAlgorithm.BinarySeparation
      (scenarioMap FindAlgorithm.BinarySeparation) 12).1.count = 5 ∧
    (value envU32U64 FindAlgorithm.BinarySeparation
      (scenarioMap FindAlgorithm.BinarySeparation) 12).1.keys = [5, 10, 12, 15, 20] :=
  ⟨by rw [scenarioMap_hasKey_iff]; decide, by decide, by decide, by decide, by decide,
   by decide⟩

end OrderedKeyMap

end Smitto
